import Mathlib

/-!
Verification development for the lexicon-to-FST compiler (`lexicon.py`).

The definitions below are a shallow embedding of the source:
* `tagTrans` / `tagLexicon` embed the positional-tagging loop
  (`trans[0] += '_S'` / `'_B'`, middle `'_I'`, last `'_E'`).  Python raises
  `IndexError` on an empty pronunciation (`trans[0]` on an empty list), which
  the embedding models as `none`.
* `countMapOf`, `properPrefixes`, `disambigStep`, `disambigGo`, `addDisambig`
  embed the disambiguation-symbol assignment pass (`# add_disambig`).
* `wordLines`, `allWordLines`, `write_nonterminal_arcs`,
  `write_fst_with_silence` embed the arc emitters.  Arc costs live in an
  arbitrary type `C`; the source computes all costs from `-math.log`, which
  is passed in as the `negLog` parameter and instantiated with
  `fun q => -Real.log q` in the theorems (Python floats are idealized as
  exact rationals/reals).
* `phoneMapOf`, `wordsMapOf`, `prepare_lexicon` embed the symbol registry and
  the top-level driver.
-/

namespace ASRLex

/-- `' '.join(trans)` from the source: words joined with a single space. -/
def joinSp : List String → String
  | [] => ""
  | [a] => a
  | a :: b :: rest => a ++ " " ++ joinSp (b :: rest)

/-- Tail of the positional-tagging loop: the phones after the first one of a
pronunciation of length ≥ 2; all get `_I` except the last which gets `_E`
(source lines 168-173). -/
def tagMid : List String → List String
  | [] => []
  | [p] => [p ++ "_E"]
  | p :: q :: rest => (p ++ "_I") :: tagMid (q :: rest)

/-- Positional tagging of one pronunciation (source lines 165-173).
A single phone gets `_S`; with length ≥ 2 the first phone gets `_B`, middle
phones `_I`, the last `_E`.  An empty pronunciation makes the source evaluate
`trans[0]` on an empty list, raising `IndexError`, modelled as `none`. -/
def tagTrans : List String → Option (List String)
  | [] => none
  | [p] => some [p ++ "_S"]
  | p :: q :: rest => some ((p ++ "_B") :: tagMid (q :: rest))

/-- Positional tagging of the whole (deep-copied) lexicon. -/
def tagLexicon {C : Type} : List (String × C × List String) →
    Option (List (String × C × List String))
  | [] => some []
  | (w, p, t) :: rest =>
    match tagTrans t, tagLexicon rest with
    | some t', some rest' => some ((w, p, t') :: rest')
    | _, _ => none

/-- Mutable state of the disambiguation pass: `max_disambig`,
`reserved_empty` and `last_sym` of the source (lines 176-179). -/
structure DisState where
  maxDisambig : Nat
  reservedEmpty : List Nat
  lastSym : List (String × Nat)
deriving Repr, DecidableEq

/-- Fuel-driven unfolding of the skip-reserved loop; the fuel is an upper
bound on the number of iterations, proved sufficient in `nextFree_eq`. -/
def nextFreeAux (reserved : List Nat) : Nat → Nat → Nat
  | 0, c => c
  | fuel + 1, c => if c ∈ reserved then nextFreeAux reserved fuel (c + 1) else c

/-- `while curr_sym in reserved_empty: curr_sym += 1` (source lines
210-211).  Each iteration consumes a distinct element of `reserved` that is
`≥ c`, so `(reserved.filter (c ≤ ·)).length + 1` units of fuel always
suffice; `nextFree_eq` recovers the loop's defining equation. -/
def nextFree (reserved : List Nat) (c : Nat) : Nat :=
  nextFreeAux reserved ((reserved.filter fun x => c ≤ x).length + 1) c

/-- One step of the duplicate-transcription counter (`count[x] += 1`). -/
def bumpCount (m : List (String × Nat)) (x : String) : List (String × Nat) :=
  match List.lookup x m with
  | none => (x, 1) :: m
  | some c => (x, c + 1) :: m

/-- The `count` dictionary: multiplicity of each joined transcription
(source lines 181-187), as an association list (most recent binding first). -/
def countMapOf (l : List String) : List (String × Nat) :=
  l.foldl bumpCount []

/-- The pop-loop of the prefix computation with an explicit iteration
count: each `t.pop()` shortens the list by one, so the loop body runs
exactly `l.length` times. -/
def properPrefixesAux : Nat → List String → List (List String)
  | 0, _ => []
  | n + 1, l => l.dropLast :: properPrefixesAux n l.dropLast

/-- All proper prefixes of a list, generated exactly as the source's
`while len(t) > 0: t.pop(); prefix.add(' '.join(t))` loop does, i.e. by
repeatedly dropping the last element (source lines 189-194). -/
def properPrefixes (l : List String) : List (List String) :=
  properPrefixesAux l.length l

/-- The `prefix` set of the source: joined proper prefixes of all
transcriptions (membership is what matters). -/
def prefixJoins {C : Type} (tl : List (String × C × List String)) : List String :=
  tl.flatMap fun e => (properPrefixes e.2.2).map joinSp

/-- One iteration of the symbol-assignment loop (source lines 196-215) on a
single entry, given the precomputed `count` map and `prefix` set. -/
def disambigStep {C : Type} (cnt : List (String × Nat)) (pfx : List String)
    (st : DisState) (e : String × C × List String) :
    DisState × (String × C × List String) :=
  let x := joinSp e.2.2
  if x ∉ pfx ∧ List.lookup x cnt = some 1 then (st, e)
  else if x = "" then
    let m := st.maxDisambig + 1
    (⟨m, m :: st.reservedEmpty, st.lastSym⟩,
     (e.1, e.2.1, e.2.2 ++ ["#" ++ toString m]))
  else
    let c0 := match List.lookup x st.lastSym with
      | none => 1
      | some l => l + 1
    let c := nextFree st.reservedEmpty c0
    let m := if st.maxDisambig < c then c else st.maxDisambig
    (⟨m, st.reservedEmpty, (x, c) :: st.lastSym⟩,
     (e.1, e.2.1, e.2.2 ++ ["#" ++ toString c]))

/-- The symbol-assignment loop over all entries, threading the state. -/
def disambigGo {C : Type} (cnt : List (String × Nat)) (pfx : List String) :
    DisState → List (String × C × List String) →
    DisState × List (String × C × List String)
  | st, [] => (st, [])
  | st, e :: es =>
    let (st', e') := disambigStep cnt pfx st e
    let (st'', es') := disambigGo cnt pfx st' es
    (st'', e' :: es')

/-- The whole `# add_disambig` block (source lines 175-215): returns the
augmented lexicon and the final `max_disambig` (before the `+ 1` on line
217).  `first_sym = 1`, so `max_disambig` starts at `0`. -/
def addDisambig {C : Type} (tl : List (String × C × List String)) :
    List (String × C × List String) × Nat :=
  let cnt := countMapOf (tl.map fun e => joinSp e.2.2)
  let pfx := prefixJoins tl
  let (st, newLex) := disambigGo cnt pfx ⟨0, [], []⟩ tl
  (newLex, st.maxDisambig)

/-- One printed arc line `src \t dest \t phone \t word \t cost`.  The cost of
an arc lives in type `C` (instantiated with `ℝ` for the real program). -/
structure Arc (C : Type) where
  src : Nat
  dest : Nat
  ilabel : String
  olabel : String
  cost : C
deriving Repr, DecidableEq

/-- One printed output line: either an arc line or a final-state line
`state \t final_cost`. -/
inductive Line (C : Type) where
  | arc : Arc C → Line C
  | final : Nat → C → Line C
deriving Repr, DecidableEq

/-- Cost-forgetting projection of a line (source, destination and the two
labels; a final-state line is encoded with its state twice and empty
labels), used to state structural facts independently of the real-valued
costs. -/
def lineShape {C : Type} : Line C → Nat × Nat × String × String
  | .arc a => (a.src, a.dest, a.ilabel, a.olabel)
  | .final st _ => (st, st, "", "")

/-- The two start-state arcs of `write_fst_with_silence`
(source lines 92-97): `start → loop` and `start → sil`, ε in and out. -/
def startLines {C : Type} [Zero C] (noSilCost silCost : C) : List (Line C) :=
  [.arc ⟨0, 1, "<eps>", "<eps>", noSilCost⟩,
   .arc ⟨0, 2, "<eps>", "<eps>", silCost⟩]

/-- The silence branch (source lines 98-110): a single direct
`sil → loop` arc when `sil_disambig is None`, otherwise two arcs through a
freshly allocated `sil_disambig_state`.  Returns the emitted lines together
with the updated `next_state`. -/
def silBranch {C : Type} [Zero C] (silPhone : String)
    (silDisambig : Option String) (nextState : Nat) : List (Line C) × Nat :=
  match silDisambig with
  | none => ([.arc ⟨2, 1, silPhone, "<eps>", 0⟩], nextState)
  | some d =>
    ([.arc ⟨2, nextState, silPhone, "<eps>", 0⟩,
      .arc ⟨nextState, 1, d, "<eps>", 0⟩], nextState + 1)

/-- Body of `for i in range(len(pron) - 1)` (source lines 116-123): emit one
chain arc and advance `cur_state` / `next_state`. -/
def wordChainStep {C : Type} [Zero C] (pron : List String) (word : String)
    (pronCost : C) (acc : List (Line C) × Nat × Nat) (i : Nat) :
    List (Line C) × Nat × Nat :=
  let (lines, cur, next) := acc
  (lines ++ [.arc ⟨cur, next, pron.getD i "",
      if i = 0 then word else "<eps>",
      if i = 0 then pronCost else 0⟩], next, next + 1)

/-- The lines emitted for a single lexicon entry (source lines 112-137):
the chain loop starting at `cur_state = loop_state = 1`, followed by the two
parallel final arcs into `loop` (state 1) and `sil` (state 2).  Returns the
lines and the updated `next_state`. -/
def wordLines {C : Type} [Zero C] [Add C] (noSilCost silCost : C)
    (word : String) (pronCost : C) (pron : List String) (nextState : Nat) :
    List (Line C) × Nat :=
  let (lines, cur, next) :=
    (List.range (pron.length - 1)).foldl (wordChainStep pron word pronCost)
      ([], 1, nextState)
  -- i = len(pron) - 1; i == -1 when pron is empty
  let phone := if pron = [] then "<eps>" else pron.getD (pron.length - 1) ""
  let oword := if pron.length ≤ 1 then word else "<eps>"
  let extra := if pron.length ≤ 1 then pronCost else 0
  (lines ++ [.arc ⟨cur, 1, phone, oword, noSilCost + extra⟩,
             .arc ⟨cur, 2, phone, oword, silCost + extra⟩], next)

/-- `for (word, pronprob, pron) in lexicon` (source line 112): emit the
lines of each entry in order, threading `next_state`. -/
def allWordLines {C : Type} [Zero C] [Add C] (noSilCost silCost : C) :
    List (String × C × List String) → Nat → List (Line C) × Nat
  | [], next => ([], next)
  | (w, p, pron) :: rest, next =>
    let (ls, next') := wordLines noSilCost silCost w p pron next
    let (ls2, next'') := allWordLines noSilCost silCost rest next'
    (ls ++ ls2, next'')

/-- `write_nonterminal_arcs` (source lines 11-61).  In the source every line
of this function is written with a bare `print(...)`, i.e. to standard
output, not to the `file` argument of `write_fst_with_silence`.  Returns the
printed lines and the updated `next_state` (two states are allocated:
`shared_state` and `final_state`). -/
def write_nonterminal_arcs {C : Type} [Zero C] (negLog : ℚ → C)
    (startState loopState nextState : Nat)
    (nonterminals leftContextPhones : List String) : List (Line C) × Nat :=
  let sharedState := nextState
  let finalState := nextState + 1
  -- this_cost = -math.log(1.0 / len(left_context_phones))
  let thisCost := negLog (1 / (leftContextPhones.length : ℚ))
  ([.arc ⟨startState, sharedState, "#nonterm_begin", "#nonterm_begin", 0⟩]
    ++ nonterminals.map (fun nt => .arc ⟨loopState, sharedState, nt, nt, 0⟩)
    ++ leftContextPhones.map
        (fun p => .arc ⟨sharedState, loopState, p, "<eps>", thisCost⟩)
    ++ [.arc ⟨loopState, finalState, "#nonterm_end", "#nonterm_end", 0⟩,
        .final finalState 0],
   nextState + 2)

/-- `write_fst_with_silence` (source lines 64-146).  The `assert
0 < sil_prob < 1` is modelled as returning `none`.  The result is the pair
(lines printed to the `file` argument, lines printed to standard output);
only `write_nonterminal_arcs` prints to standard output.  The silence
probability is a rational and all costs are produced through the `negLog`
parameter, instantiated with `fun q => -Real.log q` for the real program. -/
def write_fst_with_silence {C : Type} [Zero C] [Add C] (negLog : ℚ → C)
    (lexicon : List (String × C × List String)) (silProb : ℚ)
    (silPhone : String) (silDisambig : Option String)
    (nonterminals : Option (List String)) (leftContextPhones : List String) :
    Option (List (Line C) × List (Line C)) :=
  if 0 < silProb ∧ silProb < 1 then
    let silCost := negLog silProb
    let noSilCost := negLog (1 - silProb)
    -- start_state = 0, loop_state = 1, sil_state = 2, next_state = 3
    let (silLines, next1) := silBranch silPhone silDisambig 3
    let (wordLs, next2) := allWordLines noSilCost silCost lexicon next1
    let stdoutLines :=
      match nonterminals with
      | none => ([] : List (Line C))
      | some nts =>
        (write_nonterminal_arcs negLog 0 1 next2 nts leftContextPhones).1
    some (startLines noSilCost silCost ++ silLines ++ wordLs
            ++ [.final 1 0], stdoutLines)
  else none

/-- Phone-id allocation for the silence phones (source lines 224-234): for
each silence phone, five consecutive ids for the plain, `_B`, `_E`, `_S`,
`_I` forms, threading the counter. -/
def silPhoneEntries : List String → Nat → List (String × Nat) × Nat
  | [], c => ([], c)
  | p :: rest, c =>
    let (tail, c') := silPhoneEntries rest (c + 5)
    ([(p, c), (p ++ "_B", c + 1), (p ++ "_E", c + 2),
      (p ++ "_S", c + 3), (p ++ "_I", c + 4)] ++ tail, c')

/-- Phone-id allocation for the non-silence phones (source lines 235-243):
four consecutive ids for the `_B`, `_E`, `_S`, `_I` forms (no plain form). -/
def nonsilPhoneEntries : List String → Nat → List (String × Nat) × Nat
  | [], c => ([], c)
  | p :: rest, c =>
    let (tail, c') := nonsilPhoneEntries rest (c + 4)
    ([(p ++ "_B", c), (p ++ "_E", c + 1),
      (p ++ "_S", c + 2), (p ++ "_I", c + 3)] ++ tail, c')

/-- Phone ids of the `#i` disambiguation symbols (source lines 244-246):
`for i in range(bound)` with the running counter. -/
def disambigEntries (bound c : Nat) : List (String × Nat) :=
  (List.range bound).map fun i => ("#" ++ toString i, c + i)

/-- The `phone_map` dict of `prepare_lexicon` (source lines 220-246), as an
association list in insertion order.  `maxDis` is the value of the
`max_disambig` variable at line 244, i.e. the incremented value that also
serves as the dedicated silence disambiguation symbol, so the `#i` entries
run over `i ∈ [0, maxDis]`. -/
def phoneMapOf (silencePhones nonsilencePhones : List String)
    (maxDis : Nat) : List (String × Nat) :=
  let (silE, c1) := silPhoneEntries silencePhones 1
  let (nsE, c2) := nonsilPhoneEntries nonsilencePhones c1
  ("<eps>", 0) :: silE ++ nsE ++ disambigEntries (maxDis + 1) c2

/-- Number a list of words consecutively starting at `c`. -/
def numberFrom : Nat → List String → List (String × Nat)
  | _, [] => []
  | c, w :: rest => (w, c) :: numberFrom (c + 1) rest

/-- `sorted(wordlist)` where `wordlist` is the set of words of the lexicon
(source lines 263-266): the distinct words in increasing order. -/
def sortedWords (ws : List String) : List String :=
  ws.dedup.insertionSort (· ≤ ·)

/-- The `words_map` dict of `prepare_lexicon` (source lines 259-274):
epsilon, the sorted distinct words, then `#0`, `<s>`, `</s>`. -/
def wordsMapOf {C : Type} (lexicon : List (String × C × List String)) :
    List (String × Nat) :=
  let words := sortedWords (lexicon.map fun e => e.1)
  let c := 1 + words.length
  ("<eps>", 0) :: numberFrom 1 words
    ++ [("#0", c), ("<s>", c + 1), ("</s>", c + 2)]

/-- Failure modes of `prepare_lexicon`: the phone-validity `assert` (source
line 163), the `IndexError` raised by tagging an empty pronunciation (line
167 reached with an empty list), and the `assert` inside
`write_fst_with_silence` (line 82, never triggered by the fixed 0.5). -/
inductive PrepError where
  | invalidPhone
  | indexError
  | assertionError
deriving Repr, DecidableEq

/-- The observable outcome of `prepare_lexicon`: the symbol registries, the
augmented lexicon, the disambiguation bookkeeping and the emitted FST text
lines (the OpenFST compilation of those lines is an external collaborator
and out of scope). -/
structure PrepResult (C : Type) where
  phoneMap : List (String × Nat)
  wordsMap : List (String × Nat)
  taggedLex : List (String × C × List String)
  assignedMax : Nat
  silDisambig : Nat
  fileLines : List (Line C)
  stdoutLines : List (Line C)
deriving Repr, DecidableEq

/-- `prepare_lexicon` (source lines 149-298): validate phones, deep-copy and
tag the lexicon, assign disambiguation symbols, compute
`sil_disambig = max_disambig + 1`, build the two symbol registries and call
`write_fst_with_silence(lexicon, 0.5, optional_silence, None, compiler)`.
Note the emitter is invoked with `sil_disambig = None` (source line 293). -/
def prepare_lexicon {C : Type} [Zero C] [Add C] (negLog : ℚ → C)
    (lexicon : List (String × C × List String))
    (silencePhones nonsilencePhones : List String)
    (optionalSilence oov : String) : Except PrepError (PrepResult C) :=
  let _ := oov  -- the `oov` argument is unused by the source as well
  if lexicon.all (fun e => e.2.2.all fun ph =>
      nonsilencePhones.contains ph || silencePhones.contains ph) then
    match tagLexicon lexicon with
    | none => .error .indexError
    | some tagged =>
      let (newLex, assignedMax) := addDisambig tagged
      let silDis := assignedMax + 1
      let phoneMap := phoneMapOf silencePhones nonsilencePhones silDis
      let wordsMap := wordsMapOf newLex
      match write_fst_with_silence negLog newLex (Rat.divInt 1 2) optionalSilence
          none none [] with
      | none => .error .assertionError
      | some (fl, sl) =>
        .ok ⟨phoneMap, wordsMap, newLex, assignedMax, silDis, fl, sl⟩
  else .error .invalidPhone

/-!  A small heap model for the in-place mutation performed by
`prepare_lexicon`.  Python pronunciation lists are mutable cells; the store
is the list of all cells, and the lexicon holds references (indices) into
it.  `prepare_lexicon` first takes `copy.deepcopy(lexicon)` (source line
164), which allocates fresh cells, and every subsequent mutation
(`trans[i] += tag`, `trans.append(...)`) targets only those fresh cells. -/

/-- The positional-tagging pass on the store: for each reference, replace
the cell contents by its tagged form, failing like the source on an empty
pronunciation. -/
def tagStorePass : List (List String) → List Nat →
    Option (List (List String))
  | store, [] => some store
  | store, r :: rs =>
    match tagTrans (store.getD r []) with
    | none => none
    | some t => tagStorePass (store.set r t) rs

/-- The symbol-appending pass on the store, reusing `disambigStep` (the
weight component is irrelevant to the mutation, so it is instantiated with
`Unit`). -/
def appendStorePass (cnt : List (String × Nat)) (pfx : List String) :
    List (List String) → DisState → List Nat → List (List String)
  | store, _, [] => store
  | store, st, r :: rs =>
    let (st', e') := disambigStep cnt pfx st ("", (), store.getD r [])
    appendStorePass cnt pfx (store.set r e'.2.2) st' rs

/-- The mutating core of `prepare_lexicon` (source lines 164-215) on the
heap model: deep-copy the referenced cells to fresh indices, tag the
copies, compute the `count` and `prefix` tables from the copies, and append
disambiguation symbols to the copies. -/
def prepareLexiconStore (store : List (List String)) (refs : List Nat) :
    Option (List (List String)) :=
  let n := store.length
  let store1 := store ++ refs.map fun r => store.getD r []
  let copyRefs := (List.range refs.length).map (n + ·)
  match tagStorePass store1 copyRefs with
  | none => none
  | some store2 =>
    let tl := copyRefs.map fun r => store2.getD r []
    let cnt := countMapOf (tl.map joinSp)
    let pfx := tl.flatMap fun t => (properPrefixes t).map joinSp
    some (appendStorePass cnt pfx store2 ⟨0, [], []⟩ copyRefs)

/-! ### Closed form of the per-entry chain emission -/

theorem range'_foldl_wordChainStep {C : Type} [Zero C] (pron : List String)
    (word : String) (w : C) :
    ∀ (m s : Nat) (L0 : List (Line C)) (cur0 next0 : Nat), 1 ≤ s →
    (List.range' s m).foldl (wordChainStep pron word w) (L0, cur0, next0) =
      (L0 ++ (List.range m).map (fun j =>
        .arc ⟨if j = 0 then cur0 else next0 + j - 1, next0 + j,
              pron.getD (s + j) "", "<eps>", 0⟩),
       (if m = 0 then cur0 else next0 + m - 1), next0 + m)
  | 0, s, L0, cur0, next0, _ => by simp
  | m + 1, s, L0, cur0, next0, hs => by
    have hs0 : s ≠ 0 := by omega
    rw [List.range'_succ, List.foldl_cons]
    have hstep : wordChainStep pron word w (L0, cur0, next0) s =
        (L0 ++ [.arc ⟨cur0, next0, pron.getD s "", "<eps>", 0⟩],
         next0, next0 + 1) := by
      simp [wordChainStep, hs0]
    rw [hstep,
      range'_foldl_wordChainStep pron word w m (s + 1) _ next0 (next0 + 1)
        (by omega)]
    have hmap : (List.range m).map (fun j =>
          (Line.arc ⟨if j = 0 then next0 else next0 + 1 + j - 1, next0 + 1 + j,
            pron.getD (s + 1 + j) "", "<eps>", 0⟩ : Line C)) =
        (List.range m).map ((fun j =>
          (Line.arc ⟨if j = 0 then cur0 else next0 + j - 1, next0 + j,
            pron.getD (s + j) "", "<eps>", 0⟩ : Line C)) ∘ Nat.succ) := by
      refine List.map_congr_left fun j _ => ?_
      rcases j with _ | j
      · simp
      · simp only [Function.comp]
        have h1 : next0 + 1 + (j + 1) - 1 = next0 + (Nat.succ (j + 1)) - 1 := by
          omega
        have h2 : next0 + 1 + (j + 1) = next0 + Nat.succ (j + 1) := by omega
        have h3 : s + 1 + (j + 1) = s + Nat.succ (j + 1) := by omega
        simp only [Nat.succ_ne_zero, if_neg, h1, h2, h3]
        simp
    rw [hmap]
    conv_rhs => rw [List.range_succ_eq_map]
    simp only [List.map_cons, List.map_map, Prod.mk.injEq]
    refine ⟨by simp [List.append_assoc], ?_, by omega⟩
    rcases Nat.eq_zero_or_pos m with hm | hm
    · subst hm; simp
    · rw [if_neg (by omega : ¬ m = 0), if_neg (by omega : ¬ m + 1 = 0)]
      omega

/-- Closed form of the lines emitted for one lexicon entry, covering all
pronunciation lengths uniformly (the chain of `L-1` arcs followed by the
two parallel final arcs). -/
theorem wordLines_eq {C : Type} [Zero C] [Add C] (noSilCost silCost : C)
    (word : String) (w : C) (pron : List String) (next : Nat) :
    wordLines noSilCost silCost word w pron next =
      ((List.range (pron.length - 1)).map (fun i =>
          .arc ⟨if i = 0 then 1 else next + i - 1, next + i, pron.getD i "",
                if i = 0 then word else "<eps>", if i = 0 then w else 0⟩)
        ++ [.arc ⟨(if pron.length ≤ 1 then 1 else next + pron.length - 2), 1,
              (if pron = [] then "<eps>" else pron.getD (pron.length - 1) ""),
              (if pron.length ≤ 1 then word else "<eps>"),
              noSilCost + (if pron.length ≤ 1 then w else 0)⟩,
            .arc ⟨(if pron.length ≤ 1 then 1 else next + pron.length - 2), 2,
              (if pron = [] then "<eps>" else pron.getD (pron.length - 1) ""),
              (if pron.length ≤ 1 then word else "<eps>"),
              silCost + (if pron.length ≤ 1 then w else 0)⟩],
       next + (pron.length - 1)) := by
  rcases Nat.lt_or_ge pron.length 2 with hL | hL
  · -- L = 0 or L = 1: no chain arcs
    have h0 : pron.length - 1 = 0 := by omega
    have h1 : pron.length ≤ 1 := by omega
    unfold wordLines
    simp only [h0, List.range_zero, List.foldl_nil, List.map_nil,
      List.nil_append, if_pos h1]
    simp
  · -- L ≥ 2
    have hne : pron ≠ [] := by
      intro h; rw [h] at hL; simp at hL
    have h1 : ¬ pron.length ≤ 1 := by omega
    unfold wordLines
    have hrange : List.range (pron.length - 1) =
        0 :: List.range' 1 (pron.length - 2) := by
      rw [List.range_eq_range']
      rw [show pron.length - 1 = (pron.length - 2) + 1 by omega]
      rfl
    rw [hrange, List.foldl_cons]
    have hstep : wordChainStep pron word w ([], 1, next) 0 =
        ([.arc ⟨1, next, pron.getD 0 "", word, w⟩], next, next + 1) := by
      simp [wordChainStep]
    rw [hstep, range'_foldl_wordChainStep pron word w (pron.length - 2) 1 _
      next (next + 1) le_rfl]
    simp only [if_neg h1, if_neg hne]
    have hmap : (List.range (pron.length - 2)).map (fun j =>
          (Line.arc ⟨if j = 0 then next else next + 1 + j - 1, next + 1 + j,
            pron.getD (1 + j) "", "<eps>", 0⟩ : Line C)) =
        (List.range (pron.length - 2)).map ((fun i =>
          (Line.arc ⟨if i = 0 then 1 else next + i - 1, next + i,
            pron.getD i "", if i = 0 then word else "<eps>",
            if i = 0 then w else 0⟩ : Line C)) ∘ (1 + ·)) := by
      refine List.map_congr_left fun j _ => ?_
      rcases j with _ | j
      · simp
      · simp only [Function.comp]
        have h2 : next + 1 + (j + 1) - 1 = next + (1 + (j + 1)) - 1 := by
          omega
        have h3 : next + 1 + (j + 1) = next + (1 + (j + 1)) := by omega
        simp only [h2, h3]
        rw [if_neg (by omega : ¬ (1 + (j + 1)) = 0),
          if_neg (by omega : ¬ (1 + (j + 1)) = 0),
          if_neg (by omega : ¬ (1 + (j + 1)) = 0)]
        congr 2
    rw [hmap]
    conv_rhs => rw [List.range'_eq_map_range]
    have hcur : (if pron.length - 2 = 0 then next
        else next + 1 + (pron.length - 2) - 1) = next + pron.length - 2 := by
      rcases Nat.eq_zero_or_pos (pron.length - 2) with hm | hm
      · rw [hm, if_pos rfl]; omega
      · rw [if_neg (by omega)]; omega
    rw [hcur]
    simp only [List.map_cons, List.map_map, Prod.mk.injEq]
    refine ⟨by simp [List.append_assoc], by omega⟩

/-- Every line emitted for a lexicon entry is an arc whose source state is
either the loop state `1` or a state allocated at or after `next`. -/
theorem wordLines_src {C : Type} [Zero C] [Add C] (noSilCost silCost : C)
    (word : String) (w : C) (pron : List String) (next : Nat) :
    ∀ l ∈ (wordLines noSilCost silCost word w pron next).1,
      ∃ a : Arc C, l = .arc a ∧ (a.src = 1 ∨ next ≤ a.src) := by
  intro l hl
  rw [wordLines_eq] at hl
  rcases List.mem_append.mp hl with hl | hl
  · rcases List.mem_map.mp hl with ⟨i, hi, rfl⟩
    refine ⟨_, rfl, ?_⟩
    rcases Nat.eq_zero_or_pos i with h0 | h0
    · subst h0; left; rfl
    · right
      simp only [if_neg (by omega : ¬ i = 0)]
      omega
  · rcases Nat.lt_or_ge pron.length 2 with hL | hL
    · have h1 : pron.length ≤ 1 := by omega
      simp only [if_pos h1, List.mem_cons, List.mem_singleton] at hl
      rcases hl with rfl | rfl | h
      · exact ⟨_, rfl, Or.inl rfl⟩
      · exact ⟨_, rfl, Or.inl rfl⟩
      · cases h
    · have h1 : ¬ pron.length ≤ 1 := by omega
      simp only [if_neg h1, List.mem_cons, List.mem_singleton] at hl
      rcases hl with rfl | rfl | h
      · refine ⟨_, rfl, Or.inr ?_⟩
        show next ≤ next + pron.length - 2
        omega
      · refine ⟨_, rfl, Or.inr ?_⟩
        show next ≤ next + pron.length - 2
        omega
      · cases h

/-- The `next_state` counter after emitting one entry. -/
theorem wordLines_next {C : Type} [Zero C] [Add C] (noSilCost silCost : C)
    (word : String) (w : C) (pron : List String) (next : Nat) :
    (wordLines noSilCost silCost word w pron next).2 =
      next + (pron.length - 1) := by
  rw [wordLines_eq]

/-- Every line emitted by the per-word loop over the whole lexicon is an arc
whose source is the loop state `1` or a state at or after `next`. -/
theorem allWordLines_src {C : Type} [Zero C] [Add C] (noSilCost silCost : C) :
    ∀ (lexicon : List (String × C × List String)) (next : Nat),
    ∀ l ∈ (allWordLines noSilCost silCost lexicon next).1,
      ∃ a : Arc C, l = .arc a ∧ (a.src = 1 ∨ next ≤ a.src)
  | [], next => by intro l hl; simp [allWordLines] at hl
  | (w, p, pron) :: rest, next => by
    intro l hl
    simp only [allWordLines] at hl
    rw [wordLines_next] at hl
    rcases List.mem_append.mp hl with hl | hl
    · exact wordLines_src noSilCost silCost w p pron next l hl
    · rcases allWordLines_src noSilCost silCost rest
        (next + (pron.length - 1)) l hl with ⟨a, rfl, ha⟩
      exact ⟨a, rfl, ha.imp id fun h => by omega⟩

/-- A `some` result forces a valid silence probability. -/
theorem write_fst_some_prob {C : Type} [Zero C] [Add C] (negLog : ℚ → C)
    (lexicon : List (String × C × List String)) (silProb : ℚ)
    (silPhone : String) (silDisambig : Option String)
    (nonterminals : Option (List String)) (leftContextPhones : List String)
    (out : List (Line C) × List (Line C))
    (h : write_fst_with_silence negLog lexicon silProb silPhone silDisambig
        nonterminals leftContextPhones = some out) :
    0 < silProb ∧ silProb < 1 := by
  by_contra hp
  rw [write_fst_with_silence, if_neg hp] at h
  cases h

/-- The file stream of `write_fst_with_silence`: the two start arcs, the
silence branch, the per-word chains, and the final-state line for `loop`. -/
theorem write_fst_file_eq {C : Type} [Zero C] [Add C] (negLog : ℚ → C)
    (lexicon : List (String × C × List String)) (silProb : ℚ)
    (silPhone : String) (silDisambig : Option String)
    (nonterminals : Option (List String)) (leftContextPhones : List String)
    (fl sl : List (Line C))
    (h : write_fst_with_silence negLog lexicon silProb silPhone silDisambig
        nonterminals leftContextPhones = some (fl, sl)) :
    fl = startLines (negLog (1 - silProb)) (negLog silProb)
          ++ (silBranch silPhone silDisambig 3).1
          ++ (allWordLines (negLog (1 - silProb)) (negLog silProb) lexicon
                (silBranch (C := C) silPhone silDisambig 3).2).1
          ++ [.final 1 0] := by
  have hp := write_fst_some_prob negLog lexicon silProb silPhone silDisambig
    nonterminals leftContextPhones _ h
  rw [write_fst_with_silence, if_pos hp] at h
  have := congrArg Prod.fst (Option.some_injective _ h)
  simpa using this.symm

/-- With nonterminals supplied, the standard-output stream is exactly the
output of `write_nonterminal_arcs`. -/
theorem write_fst_stdout_eq {C : Type} [Zero C] [Add C] (negLog : ℚ → C)
    (lexicon : List (String × C × List String)) (silProb : ℚ)
    (silPhone : String) (silDisambig : Option String)
    (nts : List String) (leftContextPhones : List String)
    (fl sl : List (Line C))
    (h : write_fst_with_silence negLog lexicon silProb silPhone silDisambig
        (some nts) leftContextPhones = some (fl, sl)) :
    sl = (write_nonterminal_arcs negLog 0 1
        (allWordLines (negLog (1 - silProb)) (negLog silProb) lexicon
          (silBranch (C := C) silPhone silDisambig 3).2).2 nts
        leftContextPhones).1 := by
  have hp := write_fst_some_prob negLog lexicon silProb silPhone silDisambig
    (some nts) leftContextPhones _ h
  rw [write_fst_with_silence, if_pos hp] at h
  have := congrArg Prod.snd (Option.some_injective _ h)
  simpa using this.symm

/-- In the file stream, every arc out of the start state `0` carries an
epsilon input label (they are the two initial arcs of the emitter). -/
theorem fileLines_src0_eps {C : Type} [Zero C] [Add C] (negLog : ℚ → C)
    (lexicon : List (String × C × List String)) (silProb : ℚ)
    (silPhone : String) (silDisambig : Option String)
    (nonterminals : Option (List String)) (leftContextPhones : List String)
    (fl sl : List (Line C))
    (h : write_fst_with_silence negLog lexicon silProb silPhone silDisambig
        nonterminals leftContextPhones = some (fl, sl)) :
    ∀ a : Arc C, Line.arc a ∈ fl → a.src = 0 → a.ilabel = "<eps>" := by
  intro a ha hsrc
  rw [write_fst_file_eq negLog lexicon silProb silPhone silDisambig
    nonterminals leftContextPhones fl sl h] at ha
  rcases List.mem_append.mp ha with ha | ha
  · rcases List.mem_append.mp ha with ha | ha
    · rcases List.mem_append.mp ha with ha | ha
      · simp only [startLines, List.mem_cons, List.mem_singleton] at ha
        rcases ha with ha | ha | ha
        · cases ha; rfl
        · cases ha; rfl
        · cases ha
      · exfalso
        rcases silDisambig with _ | d
        · simp only [silBranch, List.mem_singleton] at ha
          cases ha
          simp at hsrc
        · simp only [silBranch, List.mem_cons, List.mem_singleton] at ha
          rcases ha with ha | ha | ha
          · cases ha; simp at hsrc
          · cases ha; simp at hsrc
          · cases ha
    · exfalso
      rcases allWordLines_src _ _ lexicon _ _ ha with ⟨b, hb, hsrc'⟩
      cases hb
      have h3 : 3 ≤ (silBranch (C := C) silPhone silDisambig 3).2 := by
        rcases silDisambig with _ | d <;> simp [silBranch]
      rcases hsrc' with h1 | h1
      · omega
      · omega
  · simp only [List.mem_singleton] at ha
    cases ha

/-- What a successful run of `prepare_lexicon` guarantees about each field
of its result. -/
theorem prepare_lexicon_ok {C : Type} [Zero C] [Add C] (negLog : ℚ → C)
    (lexicon : List (String × C × List String))
    (silencePhones nonsilencePhones : List String)
    (optionalSilence oov : String) (out : PrepResult C)
    (h : prepare_lexicon negLog lexicon silencePhones nonsilencePhones
        optionalSilence oov = .ok out) :
    out.silDisambig = out.assignedMax + 1 ∧
    write_fst_with_silence negLog out.taggedLex (Rat.divInt 1 2) optionalSilence
        none none [] = some (out.fileLines, out.stdoutLines) ∧
    out.phoneMap = phoneMapOf silencePhones nonsilencePhones out.silDisambig ∧
    out.wordsMap = wordsMapOf out.taggedLex ∧
    ∃ tagged, tagLexicon lexicon = some tagged ∧
      out.taggedLex = (addDisambig tagged).1 ∧
      out.assignedMax = (addDisambig tagged).2 := by
  rw [prepare_lexicon] at h
  split at h
  · rcases htag : tagLexicon lexicon with _ | tagged <;> rw [htag] at h
    · cases h
    · rcases hw : write_fst_with_silence negLog (addDisambig tagged).1 (Rat.divInt 1 2)
          optionalSilence none none [] with _ | flsl
      · simp only [hw] at h
        cases h
      · rcases flsl with ⟨fl, sl⟩
        simp only [hw] at h
        cases h
        exact ⟨rfl, hw, rfl, rfl, tagged, rfl, rfl, rfl⟩
  · cases h

/-- C1, corrected part: the path from the silence state to the loop state in
the transducer emitted by `prepare_lexicon` is the single direct zero-cost
arc `2 → 1` labelled with the silence phone; there is no intermediate
disambiguation state, because `prepare_lexicon` passes `None` as the
silence disambiguation symbol (source line 293), even though
`sil_disambig = max_disambig + 1` was computed. -/
theorem prepare_lexicon_silence_branch_direct {C : Type} [Zero C] [Add C]
    (negLog : ℚ → C) (lexicon : List (String × C × List String))
    (silencePhones nonsilencePhones : List String)
    (optionalSilence oov : String) (out : PrepResult C)
    (h : prepare_lexicon negLog lexicon silencePhones nonsilencePhones
        optionalSilence oov = .ok out) :
    out.silDisambig = out.assignedMax + 1 ∧
    Line.arc ⟨2, 1, optionalSilence, "<eps>", 0⟩ ∈ out.fileLines ∧
    ∀ a : Arc C, Line.arc a ∈ out.fileLines → a.src = 2 →
      a = ⟨2, 1, optionalSilence, "<eps>", 0⟩ := by
  obtain ⟨hsil, hw, -, -, -⟩ := prepare_lexicon_ok negLog lexicon
    silencePhones nonsilencePhones optionalSilence oov out h
  have hfl := write_fst_file_eq negLog out.taggedLex (Rat.divInt 1 2) optionalSilence
    none none [] out.fileLines out.stdoutLines hw
  refine ⟨hsil, ?_, ?_⟩
  · rw [hfl]
    simp [silBranch]
  · intro a ha hsrc
    rw [hfl] at ha
    rcases List.mem_append.mp ha with ha | ha
    · rcases List.mem_append.mp ha with ha | ha
      · rcases List.mem_append.mp ha with ha | ha
        · exfalso
          simp only [startLines, List.mem_cons, List.mem_singleton] at ha
          rcases ha with ha | ha | ha
          · cases ha; simp at hsrc
          · cases ha; simp at hsrc
          · cases ha
        · simp only [silBranch, List.mem_singleton] at ha
          cases ha
          rfl
      · exfalso
        rcases allWordLines_src _ _ out.taggedLex _ _ ha with ⟨b, hb, hsrc'⟩
        cases hb
        have h3 : (silBranch (C := C) optionalSilence none 3).2 = 3 := rfl
        rcases hsrc' with h1 | h1
        · omega
        · rw [h3] at h1; omega
    · exfalso
      simp only [List.mem_singleton] at ha
      cases ha

/-- C1 counterexample: on the lexicon `[("a", 0.0, ["x"])]` with silence
phone `sil`, `prepare_lexicon` (with the real `-log` cost function) computes
`assignedMax = 0` and `sil_disambig = 1` (the final global maximum plus 1),
but the emitted silence branch is the single direct arc `2 → 1` carrying the
silence phone: every arc leaving state `2` goes straight to the loop state
`1` and no emitted arc carries the dedicated symbol `#1`, contradicting the
claim that the silence branch passes through an intermediate disambiguation
state via that symbol. -/
theorem C1_counterexample :
    (prepare_lexicon (fun q => -Real.log (q : ℝ)) [("a", (0 : ℝ), ["x"])]
        ["sil"] ["x"] "sil" "<unk>").map
      (fun out => (out.assignedMax, out.silDisambig,
        out.fileLines.map lineShape,
        out.fileLines.all fun l =>
          match l with
          | .arc a => (a.src != 2 || a.dest == 1) && a.ilabel != "#1"
          | .final _ _ => true)) =
    .ok (0, 1,
      [(0, 1, "<eps>", "<eps>"), (0, 2, "<eps>", "<eps>"),
       (2, 1, "sil", "<eps>"), (1, 1, "x_S", "a"), (1, 2, "x_S", "a"),
       (1, 1, "", "")], true) := by
  rfl

/-- C1 witness: the amended statement instantiated on a concrete run. -/
theorem C1_witness :
    prepare_lexicon (C := ℚ) (fun q => -q) [("a", 0, ["x"])] ["sil"] ["x"]
        "sil" "<unk>" =
      .ok ⟨[("<eps>", 0), ("sil", 1), ("sil_B", 2), ("sil_E", 3),
            ("sil_S", 4), ("sil_I", 5), ("x_B", 6), ("x_E", 7), ("x_S", 8),
            ("x_I", 9), ("#0", 10), ("#1", 11)],
           [("<eps>", 0), ("a", 1), ("#0", 2), ("<s>", 3), ("</s>", 4)],
           [("a", 0, ["x_S"])], 0, 1,
           [.arc ⟨0, 1, "<eps>", "<eps>", -(1 - Rat.divInt 1 2)⟩,
            .arc ⟨0, 2, "<eps>", "<eps>", -(Rat.divInt 1 2)⟩,
            .arc ⟨2, 1, "sil", "<eps>", 0⟩,
            .arc ⟨1, 1, "x_S", "a", -(1 - Rat.divInt 1 2) + 0⟩,
            .arc ⟨1, 2, "x_S", "a", -(Rat.divInt 1 2) + 0⟩,
            .final 1 0], []⟩ ∧
    ((1 : Nat) = 0 + 1 ∧
     Line.arc ⟨2, 1, "sil", "<eps>", (0 : ℚ)⟩ ∈
       [Line.arc ⟨0, 1, "<eps>", "<eps>", (-(1 - Rat.divInt 1 2) : ℚ)⟩,
        .arc ⟨0, 2, "<eps>", "<eps>", -(Rat.divInt 1 2)⟩,
        .arc ⟨2, 1, "sil", "<eps>", 0⟩,
        .arc ⟨1, 1, "x_S", "a", -(1 - Rat.divInt 1 2) + 0⟩,
        .arc ⟨1, 2, "x_S", "a", -(Rat.divInt 1 2) + 0⟩,
        .final 1 0]) := by
  have h : prepare_lexicon (C := ℚ) (fun q => -q) [("a", 0, ["x"])] ["sil"]
      ["x"] "sil" "<unk>" =
    .ok ⟨[("<eps>", 0), ("sil", 1), ("sil_B", 2), ("sil_E", 3),
          ("sil_S", 4), ("sil_I", 5), ("x_B", 6), ("x_E", 7), ("x_S", 8),
          ("x_I", 9), ("#0", 10), ("#1", 11)],
         [("<eps>", 0), ("a", 1), ("#0", 2), ("<s>", 3), ("</s>", 4)],
         [("a", 0, ["x_S"])], 0, 1,
         [.arc ⟨0, 1, "<eps>", "<eps>", -(1 - Rat.divInt 1 2)⟩,
          .arc ⟨0, 2, "<eps>", "<eps>", -(Rat.divInt 1 2)⟩,
          .arc ⟨2, 1, "sil", "<eps>", 0⟩,
          .arc ⟨1, 1, "x_S", "a", -(1 - Rat.divInt 1 2) + 0⟩,
          .arc ⟨1, 2, "x_S", "a", -(Rat.divInt 1 2) + 0⟩,
          .final 1 0], []⟩ := by rfl
  have hc := prepare_lexicon_silence_branch_direct (C := ℚ) (fun q => -q)
    [("a", 0, ["x"])] ["sil"] ["x"] "sil" "<unk>" _ h
  exact ⟨h, hc.1, hc.2.1⟩

/-- C2 (the claim is what the spec intends, the code slips): on the lexicon
`[("a", 0.0, [])]` whose only pronunciation is empty, `prepare_lexicon`
raises `IndexError` in the positional-tagging loop (`trans[0] += '_B'` on an
empty list, source line 169), so the empty pronunciation is neither
preserved nor given a disambiguation symbol, even though the later passes
(the `reserved_empty` branch, lines 201-204, and the emitter's
`i == -1 if pron is empty` case, line 125) explicitly handle empty
pronunciations. -/
theorem C2_empty_pron_raises :
    prepare_lexicon (C := ℚ) (fun q => -q) [("a", 0, [])] ["sil"] ["x"]
        "sil" "<unk>" = .error .indexError := by
  rfl

/-- C7 counterexample: calling `write_fst_with_silence` with a nonterminal
and a left-context phone, every line emitted by `write_nonterminal_arcs`
(the `#nonterm_begin` arc, the nonterminal arc, the left-context arc, the
`#nonterm_end` arc and the extra final state) appears on the
standard-output stream only, while the stream written to the `file`
argument receives just the start arcs, the silence sub-graph and the loop
final state; in particular the `#nonterm_begin` arc is not appended to the
`file` stream, contradicting the claim. -/
theorem C7_counterexample :
    (write_fst_with_silence (C := ℚ) (fun q => -q) [] (Rat.divInt 1 2) "sil"
        none (some ["#nonterm:x"]) ["a"]).map
      (fun out => (out.1.map lineShape, out.2.map lineShape)) =
    some ([(0, 1, "<eps>", "<eps>"), (0, 2, "<eps>", "<eps>"),
           (2, 1, "sil", "<eps>"), (1, 1, "", "")],
          [(0, 3, "#nonterm_begin", "#nonterm_begin"),
           (1, 3, "#nonterm:x", "#nonterm:x"), (3, 1, "a", "<eps>"),
           (1, 4, "#nonterm_end", "#nonterm_end"), (4, 4, "", "")]) := by
  rfl

/-- C7, corrected: when nonterminals and left-context phones are supplied,
the lines of the nonterminal extension emitter all go to standard output
(bare `print`, source lines 34-60), not to the `file` argument: the
standard-output stream is exactly the output of `write_nonterminal_arcs`,
it contains the `#nonterm_begin` arc out of the start state, and that arc
is not in the file stream (whose only arcs out of state `0` are the two
epsilon start arcs). -/
theorem write_fst_nonterminal_goes_to_stdout {C : Type} [Zero C] [Add C]
    (negLog : ℚ → C) (lexicon : List (String × C × List String))
    (silProb : ℚ) (silPhone : String) (silDisambig : Option String)
    (nts leftContextPhones : List String) (fl sl : List (Line C))
    (h : write_fst_with_silence negLog lexicon silProb silPhone silDisambig
        (some nts) leftContextPhones = some (fl, sl)) :
    sl = (write_nonterminal_arcs negLog 0 1
        (allWordLines (negLog (1 - silProb)) (negLog silProb) lexicon
          (silBranch (C := C) silPhone silDisambig 3).2).2 nts
        leftContextPhones).1 ∧
    ∃ a : Arc C, Line.arc a ∈ sl ∧ a.src = 0 ∧
      a.ilabel = "#nonterm_begin" ∧ a.olabel = "#nonterm_begin" ∧
      a.cost = 0 ∧ Line.arc a ∉ fl := by
  have hsl := write_fst_stdout_eq negLog lexicon silProb silPhone
    silDisambig nts leftContextPhones fl sl h
  refine ⟨hsl, ⟨0,
    (allWordLines (negLog (1 - silProb)) (negLog silProb) lexicon
      (silBranch (C := C) silPhone silDisambig 3).2).2,
    "#nonterm_begin", "#nonterm_begin", 0⟩, ?_, rfl, rfl, rfl, rfl, ?_⟩
  · rw [hsl]
    simp [write_nonterminal_arcs]
  · intro hmem
    have := fileLines_src0_eps negLog lexicon silProb silPhone silDisambig
      (some nts) leftContextPhones fl sl h _ hmem rfl
    have hne : ("#nonterm_begin" : String) ≠ "<eps>" := by decide
    exact hne this

/-- C7 witness: the corrected statement instantiated on a concrete run. -/
theorem C7_witness :
    write_fst_with_silence (C := ℚ) (fun q => -q) [] (Rat.divInt 1 2) "sil" none
        (some ["#nonterm:x"]) ["a"] =
      some ([.arc ⟨0, 1, "<eps>", "<eps>", -(1 - Rat.divInt 1 2)⟩,
             .arc ⟨0, 2, "<eps>", "<eps>", -(Rat.divInt 1 2)⟩,
             .arc ⟨2, 1, "sil", "<eps>", 0⟩,
             .final 1 0],
            [.arc ⟨0, 3, "#nonterm_begin", "#nonterm_begin", 0⟩,
             .arc ⟨1, 3, "#nonterm:x", "#nonterm:x", 0⟩,
             .arc ⟨3, 1, "a", "<eps>", -(1 / 1)⟩,
             .arc ⟨1, 4, "#nonterm_end", "#nonterm_end", 0⟩,
             .final 4 0]) ∧
    ∃ a : Arc ℚ,
      Line.arc a ∈ [Line.arc ⟨0, 3, "#nonterm_begin", "#nonterm_begin",
          (0 : ℚ)⟩,
        .arc ⟨1, 3, "#nonterm:x", "#nonterm:x", 0⟩,
        .arc ⟨3, 1, "a", "<eps>", -(1 / 1)⟩,
        .arc ⟨1, 4, "#nonterm_end", "#nonterm_end", 0⟩,
        .final 4 0] ∧ a.src = 0 ∧
      a.ilabel = "#nonterm_begin" ∧ a.olabel = "#nonterm_begin" ∧
      a.cost = 0 ∧
      Line.arc a ∉ [Line.arc ⟨0, 1, "<eps>", "<eps>", (-(1 - Rat.divInt 1 2) : ℚ)⟩,
        .arc ⟨0, 2, "<eps>", "<eps>", -(Rat.divInt 1 2)⟩,
        .arc ⟨2, 1, "sil", "<eps>", 0⟩,
        .final 1 0] := by
  have h : write_fst_with_silence (C := ℚ) (fun q => -q) [] (Rat.divInt 1 2) "sil"
      none (some ["#nonterm:x"]) ["a"] =
    some ([.arc ⟨0, 1, "<eps>", "<eps>", -(1 - Rat.divInt 1 2)⟩,
           .arc ⟨0, 2, "<eps>", "<eps>", -(Rat.divInt 1 2)⟩,
           .arc ⟨2, 1, "sil", "<eps>", 0⟩,
           .final 1 0],
          [.arc ⟨0, 3, "#nonterm_begin", "#nonterm_begin", 0⟩,
           .arc ⟨1, 3, "#nonterm:x", "#nonterm:x", 0⟩,
           .arc ⟨3, 1, "a", "<eps>", -(1 / 1)⟩,
           .arc ⟨1, 4, "#nonterm_end", "#nonterm_end", 0⟩,
           .final 4 0]) := by rfl
  exact ⟨h, (write_fst_nonterminal_goes_to_stdout (C := ℚ) (fun q => -q) []
    (Rat.divInt 1 2) "sil" none ["#nonterm:x"] ["a"] _ _ h).2⟩

/-- C8: `write_fst_with_silence` fails (the `assert sil_prob > 0.0 and
sil_prob < 1.0`, source line 82) before emitting any line if and only if
the silence probability is not strictly between 0 and 1; for every valid
probability the run succeeds and the first two emitted lines are the
start-state arcs with costs `no_sil_cost = -ln(1 - p)` into the loop state
and `sil_cost = -ln p` into the silence state. -/
theorem write_fst_assert_iff (lexicon : List (String × ℝ × List String))
    (silProb : ℚ) (silPhone : String) (silDisambig : Option String)
    (nonterminals : Option (List String)) (leftContextPhones : List String) :
    (write_fst_with_silence (fun q => -Real.log (q : ℝ)) lexicon silProb
        silPhone silDisambig nonterminals leftContextPhones = none ↔
      ¬ (0 < silProb ∧ silProb < 1)) ∧
    ((0 < silProb ∧ silProb < 1) →
      (write_fst_with_silence (fun q => -Real.log (q : ℝ)) lexicon silProb
          silPhone silDisambig nonterminals leftContextPhones).map
        (fun out => out.1.take 2) =
      some [.arc ⟨0, 1, "<eps>", "<eps>", -Real.log (1 - (silProb : ℝ))⟩,
            .arc ⟨0, 2, "<eps>", "<eps>", -Real.log (silProb : ℝ)⟩]) := by
  constructor
  · by_cases hp : 0 < silProb ∧ silProb < 1
    · rw [write_fst_with_silence, if_pos hp]
      simp [hp]
    · rw [write_fst_with_silence, if_neg hp]
      simp [hp]
  · intro hp
    rw [write_fst_with_silence, if_pos hp]
    have hc1 : ((1 - silProb : ℚ) : ℝ) = 1 - (silProb : ℝ) := by push_cast; ring
    simp [startLines, hc1]

/-- C8 witness: the success half instantiated at probability 1/2. -/
theorem C8_witness :
    (0 < Rat.divInt 1 2 ∧ Rat.divInt 1 2 < 1) ∧
    (write_fst_with_silence (fun q => -Real.log (q : ℝ)) [] (Rat.divInt 1 2)
        "sil" none none []).map (fun out => out.1.take 2) =
      some [.arc ⟨0, 1, "<eps>", "<eps>",
              -Real.log (1 - ((Rat.divInt 1 2 : ℚ) : ℝ))⟩,
            .arc ⟨0, 2, "<eps>", "<eps>",
              -Real.log ((Rat.divInt 1 2 : ℚ) : ℝ)⟩] :=
  ⟨by decide, (write_fst_assert_iff [] (Rat.divInt 1 2) "sil" none none
    []).2 (by decide)⟩

/-- C9: every arc leaving the nonterminal `shared` state goes to the loop
state with epsilon output and the identical cost `-ln(1/n)` where `n` is
the number of left-context phones, and consequently the sum of
`exp(-cost)` over all arcs leaving `shared` is exactly 1 (the stochastic
invariant). -/
theorem nonterminal_shared_stochastic (startState loopState nextState : Nat)
    (nonterminals leftContextPhones : List String)
    (hne : leftContextPhones ≠ []) (hs : startState < nextState)
    (hl : loopState < nextState) :
    (∀ a : Arc ℝ, Line.arc a ∈ (write_nonterminal_arcs
          (fun q => -Real.log (q : ℝ)) startState loopState nextState
          nonterminals leftContextPhones).1 →
        a.src = nextState →
        a.dest = loopState ∧ a.olabel = "<eps>" ∧
        a.cost = -Real.log (1 / (leftContextPhones.length : ℝ))) ∧
    (((write_nonterminal_arcs (fun q => -Real.log (q : ℝ)) startState
          loopState nextState nonterminals leftContextPhones).1.filterMap
        (fun l => match l with
          | .arc a => if a.src = nextState then some a.cost else none
          | .final _ _ => none)).map (fun c => Real.exp (-c))).sum = 1 := by
  have hn : 0 < leftContextPhones.length := List.length_pos.mpr hne
  have hcast : ((1 / (leftContextPhones.length : ℚ) : ℚ) : ℝ) =
      1 / (leftContextPhones.length : ℝ) := by push_cast; ring
  constructor
  · intro a ha hsrc
    have hexp1 : (write_nonterminal_arcs (fun q => -Real.log (q : ℝ))
        startState loopState nextState nonterminals leftContextPhones).1 =
      [Line.arc ⟨startState, nextState, "#nonterm_begin", "#nonterm_begin",
          0⟩]
        ++ nonterminals.map
            (fun nt => Line.arc ⟨loopState, nextState, nt, nt, 0⟩)
        ++ leftContextPhones.map
            (fun p => Line.arc ⟨nextState, loopState, p, "<eps>", -Real.log ((1 / (leftContextPhones.length : ℚ) : ℚ) : ℝ)⟩)
        ++ [Line.arc ⟨loopState, nextState + 1, "#nonterm_end",
              "#nonterm_end", 0⟩,
            Line.final (nextState + 1) 0] := rfl
    rw [hexp1] at ha
    rcases List.mem_append.mp ha with ha | ha
    · rcases List.mem_append.mp ha with ha | ha
      · rcases List.mem_append.mp ha with ha | ha
        · have heq := List.mem_singleton.mp ha
          cases heq
          simp at hsrc
          exact absurd hsrc (by omega)
        · rcases List.mem_map.mp ha with ⟨nt, -, hnt⟩
          cases hnt
          simp at hsrc
          exact absurd hsrc (by omega)
      · rcases List.mem_map.mp ha with ⟨p, -, hp2⟩
        cases hp2
        refine ⟨rfl, rfl, ?_⟩
        show -Real.log ((1 / (leftContextPhones.length : ℚ) : ℚ) : ℝ) = _
        rw [hcast]
    · rcases List.mem_cons.mp ha with ha | ha
      · cases ha
        simp at hsrc
        exact absurd hsrc (by omega)
      · have heq := List.mem_singleton.mp ha
        cases heq
  · have hfm : (write_nonterminal_arcs (fun q => -Real.log (q : ℝ))
        startState loopState nextState nonterminals
        leftContextPhones).1.filterMap
        (fun l => match l with
          | .arc a => if a.src = nextState then some a.cost else none
          | .final _ _ => none) =
      leftContextPhones.map (fun _ => -Real.log ((1 / (leftContextPhones.length : ℚ) : ℚ) : ℝ)) := by
      simp only [write_nonterminal_arcs, List.filterMap_append,
        List.filterMap_cons, List.filterMap_nil, List.filterMap_map]
      rw [if_neg (by omega : ¬ startState = nextState),
        if_neg (by omega : ¬ loopState = nextState)]
      have h1 : List.filterMap ((fun l => match l with
            | Line.arc a => if a.src = nextState then some a.cost else none
            | Line.final _ _ => none) ∘
          (fun nt => (Line.arc ⟨loopState, nextState, nt, nt, 0⟩ : Line ℝ)))
          nonterminals = [] := by
        rw [List.filterMap_eq_nil_iff]
        intro nt _
        show (if loopState = nextState then some (0 : ℝ) else none) = none
        rw [if_neg (by omega : ¬ loopState = nextState)]
      have h2 : List.filterMap ((fun l => match l with
            | Line.arc a => if a.src = nextState then some a.cost else none
            | Line.final _ _ => none) ∘
          (fun p => (Line.arc ⟨nextState, loopState, p, "<eps>", -Real.log ((1 / (leftContextPhones.length : ℚ) : ℚ) : ℝ)⟩ :
            Line ℝ))) leftContextPhones =
          leftContextPhones.map (fun _ => -Real.log ((1 / (leftContextPhones.length : ℚ) : ℚ) : ℝ)) := by
        have hfun : ((fun l => match l with
            | Line.arc a => if a.src = nextState then some a.cost else none
            | Line.final _ _ => none) ∘
          (fun p : String => (Line.arc ⟨nextState, loopState, p, "<eps>",
            -Real.log ((1 / (leftContextPhones.length : ℚ) : ℚ) : ℝ)⟩ : Line ℝ))) =
            some ∘ (fun _ : String => -Real.log ((1 / (leftContextPhones.length : ℚ) : ℚ) : ℝ)) := by
          funext p
          show (if nextState = nextState then some (-Real.log ((1 / (leftContextPhones.length : ℚ) : ℚ) : ℝ)) else none) =
            some (-Real.log ((1 / (leftContextPhones.length : ℚ) : ℚ) : ℝ))
          rw [if_pos rfl]
        rw [hfun, List.filterMap_eq_map]
      rw [h1, h2]
      simp
    rw [hfm, List.map_map]
    have hsum : ∀ (l : List String) (x : ℝ),
        (l.map fun _ => x).sum = l.length * x := by
      intro l x
      induction l with
      | nil => simp
      | cons a t ih => simp [ih]; ring
    have hexp : (fun c => Real.exp (-c)) ∘ (fun (_ : String) => -Real.log ((1 / (leftContextPhones.length : ℚ) : ℚ) : ℝ)) =
        fun _ => 1 / (leftContextPhones.length : ℝ) := by
      funext p
      simp only [Function.comp, neg_neg, hcast]
      rw [Real.exp_log]
      positivity
    rw [hexp, hsum]
    rw [mul_one_div]
    rw [div_self]
    exact Nat.cast_ne_zero.mpr (by omega)

/-- C9 witness: the stochastic sum instantiated on two left-context
phones. -/
theorem C9_witness :
    (((write_nonterminal_arcs (fun q => -Real.log (q : ℝ)) 0 1 3 ["#nt"]
        ["a", "b"]).1.filterMap (fun l => match l with
          | .arc a => if a.src = 3 then some a.cost else none
          | .final _ _ => none)).map (fun c => Real.exp (-c))).sum = 1 :=
  (nonterminal_shared_stochastic 0 1 3 ["#nt"] ["a", "b"] (by decide)
    (by decide) (by decide)).2

/-- C5: the lines emitted for one lexicon entry with (tagged, disambiguated)
pronunciation of length `L` form a chain of `L-1` arcs from the loop state
through freshly allocated states, where arc `i` carries input
`pron[i]`, the word as output only on arc 0 and the entry's weight as cost
only on arc 0, followed by two parallel final arcs with identical labels
into the loop state (cost `no_sil_cost`, plus the weight when `L ≤ 1`) and
into the silence state (cost `sil_cost`, plus the weight when `L ≤ 1`);
when `L = 0` the two parallel arcs leave the loop state directly with
epsilon input and the word as output.  The freshly allocated intermediate
states are distinct from the start, loop and silence states, and the two
parallel final arcs differ in cost by exactly `sil_cost - no_sil_cost`. -/
theorem wordLines_chain_spec (noSilCost silCost : ℝ) (word : String)
    (w : ℝ) (pron : List String) (next : Nat) (h3 : 3 ≤ next) :
    wordLines noSilCost silCost word w pron next =
      ((List.range (pron.length - 1)).map (fun i =>
          .arc ⟨if i = 0 then 1 else next + i - 1, next + i, pron.getD i "",
                if i = 0 then word else "<eps>", if i = 0 then w else 0⟩)
        ++ [.arc ⟨(if pron.length ≤ 1 then 1 else next + pron.length - 2), 1,
              (if pron = [] then "<eps>" else pron.getD (pron.length - 1) ""),
              (if pron.length ≤ 1 then word else "<eps>"),
              noSilCost + (if pron.length ≤ 1 then w else 0)⟩,
            .arc ⟨(if pron.length ≤ 1 then 1 else next + pron.length - 2), 2,
              (if pron = [] then "<eps>" else pron.getD (pron.length - 1) ""),
              (if pron.length ≤ 1 then word else "<eps>"),
              silCost + (if pron.length ≤ 1 then w else 0)⟩],
       next + (pron.length - 1)) ∧
    (∀ i, i < pron.length - 1 → 2 < next + i) ∧
    (silCost + (if pron.length ≤ 1 then w else 0)) -
      (noSilCost + (if pron.length ≤ 1 then w else 0)) =
      silCost - noSilCost :=
  ⟨wordLines_eq noSilCost silCost word w pron next,
   fun i _ => by omega,
   by ring⟩

/-- C5 witness: the chain closed form instantiated on a two-phone
pronunciation starting at state 3. -/
theorem C5_witness :
    3 ≤ 3 ∧
    (wordLines (0 : ℝ) 1 "w" 0 ["p", "q"] 3 =
      ((List.range ((["p", "q"] : List String).length - 1)).map (fun i =>
          .arc ⟨if i = 0 then 1 else 3 + i - 1, 3 + i,
                (["p", "q"] : List String).getD i "",
                if i = 0 then "w" else "<eps>", if i = 0 then (0 : ℝ) else 0⟩)
        ++ [.arc ⟨(if (["p", "q"] : List String).length ≤ 1 then 1
                else 3 + (["p", "q"] : List String).length - 2), 1,
              (if (["p", "q"] : List String) = [] then "<eps>"
                else (["p", "q"] : List String).getD
                  ((["p", "q"] : List String).length - 1) ""),
              (if (["p", "q"] : List String).length ≤ 1 then "w"
                else "<eps>"),
              (0 : ℝ) + (if (["p", "q"] : List String).length ≤ 1
                then (0 : ℝ) else 0)⟩,
            .arc ⟨(if (["p", "q"] : List String).length ≤ 1 then 1
                else 3 + (["p", "q"] : List String).length - 2), 2,
              (if (["p", "q"] : List String) = [] then "<eps>"
                else (["p", "q"] : List String).getD
                  ((["p", "q"] : List String).length - 1) ""),
              (if (["p", "q"] : List String).length ≤ 1 then "w"
                else "<eps>"),
              (1 : ℝ) + (if (["p", "q"] : List String).length ≤ 1
                then (0 : ℝ) else 0)⟩],
       3 + ((["p", "q"] : List String).length - 1)) ∧
    (∀ i, i < (["p", "q"] : List String).length - 1 → 2 < 3 + i) ∧
    ((1 : ℝ) + (if (["p", "q"] : List String).length ≤ 1 then (0 : ℝ)
        else 0)) -
      ((0 : ℝ) + (if (["p", "q"] : List String).length ≤ 1 then (0 : ℝ)
        else 0)) = (1 : ℝ) - 0) :=
  ⟨le_refl 3, wordLines_chain_spec 0 1 "w" 0 ["p", "q"] 3 (le_refl 3)⟩

/-! ### The skip-reserved loop -/

theorem length_filter_succ_lt {c : Nat} :
    ∀ {l : List Nat}, c ∈ l →
      (l.filter fun x => c + 1 ≤ x).length <
        (l.filter fun x => c ≤ x).length := by
  intro l hc
  induction l with
  | nil => cases hc
  | cons a t ih =>
    have hmono : (t.filter fun x => c + 1 ≤ x).length ≤
        (t.filter fun x => c ≤ x).length :=
      (List.monotone_filter_right t
        (fun x h => by simp at h ⊢; omega)).length_le
    rcases List.mem_cons.mp hc with rfl | hc'
    · rw [List.filter_cons, List.filter_cons,
        if_pos (by simp : decide (c ≤ c) = true),
        if_neg (by simp : ¬ decide (c + 1 ≤ c) = true)]
      simp only [List.length_cons]
      omega
    · have ht := ih hc'
      rw [List.filter_cons, List.filter_cons]
      by_cases ha1 : c + 1 ≤ a
      · rw [if_pos (by simpa using ha1),
          if_pos (by simp; omega : decide (c ≤ a) = true)]
        simp only [List.length_cons]
        omega
      · rw [if_neg (by simpa using ha1)]
        by_cases ha0 : c ≤ a
        · rw [if_pos (by simpa using ha0)]
          simp only [List.length_cons]
          omega
        · rw [if_neg (by simpa using ha0)]
          omega

theorem nextFreeAux_congr (reserved : List Nat) :
    ∀ (f1 : Nat) (c f2 : Nat),
      (reserved.filter fun x => c ≤ x).length < f1 →
      (reserved.filter fun x => c ≤ x).length < f2 →
      nextFreeAux reserved f1 c = nextFreeAux reserved f2 c
  | 0, c, f2, h1, _ => by omega
  | f1 + 1, c, 0, _, h2 => by omega
  | f1 + 1, c, f2 + 1, h1, h2 => by
    simp only [nextFreeAux]
    by_cases hc : c ∈ reserved
    · rw [if_pos hc, if_pos hc]
      have hlt := length_filter_succ_lt (l := reserved) hc
      exact nextFreeAux_congr reserved f1 (c + 1) f2 (by omega) (by omega)
    · rw [if_neg hc, if_neg hc]

/-- The defining equation of the `while curr_sym in reserved_empty` loop:
the fuel used by `nextFree` is always sufficient. -/
theorem nextFree_eq (reserved : List Nat) (c : Nat) :
    nextFree reserved c =
      if c ∈ reserved then nextFree reserved (c + 1) else c := by
  rw [nextFree, nextFreeAux]
  by_cases hc : c ∈ reserved
  · rw [if_pos hc, if_pos hc, nextFree]
    have hlt := length_filter_succ_lt (l := reserved) hc
    exact nextFreeAux_congr reserved _ (c + 1) _ (by omega) (by omega)
  · rw [if_neg hc, if_neg hc]

theorem nextFree_nil (c : Nat) : nextFree [] c = c := rfl

/-! ### The count map -/

theorem lookup_bumpCount (m : List (String × Nat)) (x y : String) :
    List.lookup x (bumpCount m y) =
      if x = y then
        some ((match List.lookup y m with
          | none => 0
          | some c => c) + 1)
      else List.lookup x m := by
  rw [bumpCount]
  rcases hy : List.lookup y m with _ | c <;> by_cases hxy : x = y
  · subst hxy
    simp [List.lookup]
  · rw [if_neg hxy]
    simp only [List.lookup]
    rw [beq_eq_false_iff_ne.mpr hxy]
  · subst hxy
    simp [List.lookup]
  · rw [if_neg hxy]
    simp only [List.lookup]
    rw [beq_eq_false_iff_ne.mpr hxy]

theorem lookup_foldl_bumpCount (x : String) :
    ∀ (l : List String) (m : List (String × Nat)),
      List.lookup x (l.foldl bumpCount m) =
        match List.lookup x m with
        | none => if l.count x = 0 then none else some (l.count x)
        | some c => some (c + l.count x)
  | [], m => by
    rcases h : List.lookup x m with _ | c <;> simp [h]
  | y :: l, m => by
    rw [List.foldl_cons, lookup_foldl_bumpCount x l (bumpCount m y),
      lookup_bumpCount]
    by_cases hxy : x = y
    · subst hxy
      rw [if_pos rfl, List.count_cons_self]
      rcases h : List.lookup x m with _ | c <;>
        simp [h, Nat.add_comm, Nat.add_assoc, Nat.add_left_comm]
    · rw [if_neg hxy, List.count_cons_of_ne (by exact hxy)]

/-- The final `count` dictionary maps each string to its multiplicity. -/
theorem countMapOf_lookup (l : List String) (x : String) :
    List.lookup x (countMapOf l) =
      if l.count x = 0 then none else some (l.count x) := by
  rw [countMapOf, lookup_foldl_bumpCount]
  simp [List.lookup]

/-! ### The prefix set -/

theorem properPrefixes_eq (l : List String) :
    properPrefixes l =
      if l = [] then [] else l.dropLast :: properPrefixes l.dropLast := by
  cases l with
  | nil => rfl
  | cons a t =>
    rw [if_neg (by simp)]
    show properPrefixesAux (t.length + 1) (a :: t) = _
    rw [properPrefixesAux]
    congr 1
    rw [properPrefixes]
    congr 1
    rw [List.length_dropLast]
    rfl

theorem prefix_dropLast_iff {l s : List String} (hl : l ≠ []) :
    s <+: l.dropLast ↔ (s <+: l ∧ s ≠ l) := by
  constructor
  · intro h
    have hdl : l.dropLast <+: l := by
      refine ⟨[l.getLast hl], ?_⟩
      exact List.dropLast_append_getLast hl
    refine ⟨h.trans hdl, ?_⟩
    intro heq
    have h1 := h.length_le
    rw [List.length_dropLast, heq] at h1
    have h2 : 0 < l.length := List.length_pos.mpr hl
    omega
  · rintro ⟨h, hne⟩
    have hlt : s.length < l.length := by
      rcases Nat.lt_or_ge s.length l.length with h1 | h1
      · exact h1
      · exact absurd (List.IsPrefix.eq_of_length h
          (le_antisymm h.length_le h1)) hne
    have hs : s = l.take s.length := List.prefix_iff_eq_take.mp h
    have hmn : s.length ≤ l.length - 1 := by omega
    have h1 : List.take s.length (List.take (l.length - 1) l) <+:
        List.take (l.length - 1) l := List.take_prefix _ _
    rw [List.take_take, min_eq_left hmn] at h1
    rw [List.dropLast_eq_take, hs]
    exact h1

theorem properPrefixes_mem_iff :
    ∀ (n : Nat) (l : List String), l.length = n → ∀ s : List String,
      (s ∈ properPrefixes l ↔ (s <+: l ∧ s ≠ l))
  | 0, l, hn, s => by
    have : l = [] := List.length_eq_zero.mp hn
    subst this
    simp only [properPrefixes, properPrefixesAux, List.not_mem_nil,
      false_iff]
    rintro ⟨h, hne⟩
    exact hne (List.prefix_nil.mp h)
  | n + 1, l, hn, s => by
    have hl : l ≠ [] := by
      intro h
      rw [h] at hn
      simp at hn
    rw [properPrefixes_eq, if_neg hl, List.mem_cons,
      properPrefixes_mem_iff n l.dropLast
        (by simp [List.length_dropLast, hn]) s,
      ← prefix_dropLast_iff hl]
    constructor
    · rintro (rfl | h)
      · exact List.prefix_refl _
      · exact h.1
    · intro h
      by_cases hs : s = l.dropLast
      · exact Or.inl hs
      · exact Or.inr ⟨h, hs⟩

/-- Membership in the precomputed prefix set: exactly the joined strict
prefixes of the entries' transcriptions. -/
theorem mem_prefixJoins {C : Type} (tl : List (String × C × List String))
    (x : String) :
    x ∈ prefixJoins tl ↔
      ∃ e ∈ tl, ∃ t, t <+: e.2.2 ∧ t ≠ e.2.2 ∧ joinSp t = x := by
  rw [prefixJoins, List.mem_flatMap]
  constructor
  · rintro ⟨e, he, hx⟩
    rcases List.mem_map.mp hx with ⟨t, ht, rfl⟩
    have := (properPrefixes_mem_iff e.2.2.length e.2.2 rfl t).mp ht
    exact ⟨e, he, t, this.1, this.2, rfl⟩
  · rintro ⟨e, he, t, h1, h2, rfl⟩
    exact ⟨e, he, List.mem_map.mpr ⟨t,
      (properPrefixes_mem_iff e.2.2.length e.2.2 rfl t).mpr ⟨h1, h2⟩, rfl⟩⟩

/-! ### Joined strings -/

theorem joinSp_append (t r : List String) (ht : t ≠ []) (hr : r ≠ []) :
    joinSp (t ++ r) = joinSp t ++ " " ++ joinSp r := by
  induction t with
  | nil => cases ht rfl
  | cons a t' ih =>
    cases t' with
    | nil =>
      cases r with
      | nil => cases hr rfl
      | cons b r' => rfl
    | cons b t'' =>
      show joinSp (a :: (b :: t'' ++ r)) = _
      rw [show joinSp (a :: (b :: t'' ++ r)) =
          a ++ " " ++ joinSp (b :: t'' ++ r) from rfl]
      rw [ih (by simp) ]
      show _ = (a ++ " " ++ joinSp (b :: t'')) ++ " " ++ joinSp r
      simp [String.append_assoc]

theorem joinSp_length_lt_of_strict_prefix {t s : List String}
    (h : t <+: s) (hne : t ≠ s) (ht : t ≠ []) :
    (joinSp t).length < (joinSp s).length := by
  rcases h with ⟨r, rfl⟩
  have hr : r ≠ [] := by
    intro hr
    rw [hr, List.append_nil] at hne
    exact hne rfl
  rw [joinSp_append t r ht hr]
  simp [String.length_append]
  have : 0 < (" " : String).length := by decide
  omega

theorem joinSp_ne_of_strict_prefix {t s : List String}
    (h : t <+: s) (hne : t ≠ s) (hx : joinSp s ≠ "") :
    joinSp t ≠ joinSp s := by
  by_cases ht : t = []
  · subst ht
    intro hc
    exact hx hc.symm
  · intro hc
    have := joinSp_length_lt_of_strict_prefix h hne ht
    rw [hc] at this
    omega

/-! ### Per-entry behaviour of the assignment loop -/

theorem disambigGo_cons {C : Type} (cnt : List (String × Nat))
    (pfx : List String) (st : DisState) (e : String × C × List String)
    (es : List (String × C × List String)) :
    disambigGo cnt pfx st (e :: es) =
      ((disambigGo cnt pfx (disambigStep cnt pfx st e).1 es).1,
       (disambigStep cnt pfx st e).2 ::
         (disambigGo cnt pfx (disambigStep cnt pfx st e).1 es).2) := rfl

theorem disambigStep_pass {C : Type} (cnt : List (String × Nat))
    (pfx : List String) (st : DisState) (e : String × C × List String)
    (h : joinSp e.2.2 ∉ pfx ∧ List.lookup (joinSp e.2.2) cnt = some 1) :
    disambigStep cnt pfx st e = (st, e) := by
  simp only [disambigStep]
  rw [if_pos h]

theorem disambigStep_not_pass {C : Type} (cnt : List (String × Nat))
    (pfx : List String) (st : DisState) (e : String × C × List String)
    (h : ¬ (joinSp e.2.2 ∉ pfx ∧ List.lookup (joinSp e.2.2) cnt = some 1)) :
    ∃ sym : String,
      (disambigStep cnt pfx st e).2 = (e.1, e.2.1, e.2.2 ++ [sym]) := by
  simp only [disambigStep]
  rw [if_neg h]
  by_cases hx : joinSp e.2.2 = ""
  · rw [if_pos hx]
    exact ⟨_, rfl⟩
  · rw [if_neg hx]
    exact ⟨_, rfl⟩

/-- An entry passes through the assignment loop unchanged exactly when the
source's condition `x not in prefix and count[x] == 1` holds for it; the
decision is independent of the loop state. -/
theorem disambigGo_unchanged_iff {C : Type} (cnt : List (String × Nat))
    (pfx : List String) :
    ∀ (es : List (String × C × List String)) (st : DisState) (i : Nat)
      (hi : i < es.length),
      (((disambigGo cnt pfx st es).2[i]? = some (es.get ⟨i, hi⟩)) ↔
        (joinSp (es.get ⟨i, hi⟩).2.2 ∉ pfx ∧
          List.lookup (joinSp (es.get ⟨i, hi⟩).2.2) cnt = some 1)) :=
  fun es => by
    induction es with
    | nil =>
      intro st i hi
      exact absurd hi (by simp)
    | cons e es ih =>
      intro st i hi
      rcases i with _ | i
      · rw [disambigGo_cons]
        simp only [List.getElem?_cons_zero, List.get]
        constructor
        · intro h
          by_contra hc
          obtain ⟨sym, hs⟩ := disambigStep_not_pass cnt pfx st e hc
          rw [hs] at h
          have := congrArg (fun t => t.2.2.length) (Option.some.inj h)
          simp at this
        · intro h
          rw [disambigStep_pass cnt pfx st e h]
      · rw [disambigGo_cons]
        simp only [List.getElem?_cons_succ]
        have hi' : i < es.length := by simpa using hi
        have := ih (disambigStep cnt pfx st e).1 i hi'
        simpa using this

/-- C4: an entry receives no disambiguation symbol if and only if its
tagged pronunciation string occurs exactly once among all entries and is
not the joined form of a strict, non-empty prefix of another entry's
tagged pronunciation; otherwise a symbol is appended.  (`hx` records that
the entry's tagged pronunciation string is non-empty, which positional
tagging always guarantees inside `prepare_lexicon`; for a non-empty string
the prefix witness is automatically non-empty.) -/
theorem addDisambig_no_symbol_iff {C : Type}
    (tl : List (String × C × List String)) (i : Nat) (hi : i < tl.length)
    (hx : joinSp (tl.get ⟨i, hi⟩).2.2 ≠ "") :
    ((addDisambig tl).1[i]? = some (tl.get ⟨i, hi⟩)) ↔
      ((tl.map fun e => joinSp e.2.2).count (joinSp (tl.get ⟨i, hi⟩).2.2)
          = 1 ∧
        ¬ ∃ j, ∃ hj : j < tl.length, j ≠ i ∧ ∃ t,
          t <+: (tl.get ⟨j, hj⟩).2.2 ∧ t ≠ (tl.get ⟨j, hj⟩).2.2 ∧
          joinSp t = joinSp (tl.get ⟨i, hi⟩).2.2) := by
  have hgo : (addDisambig tl).1 =
      (disambigGo (countMapOf (tl.map fun e => joinSp e.2.2))
        (prefixJoins tl) ⟨0, [], []⟩ tl).2 := rfl
  rw [hgo, disambigGo_unchanged_iff _ _ tl ⟨0, [], []⟩ i hi]
  have hxmem : joinSp (tl.get ⟨i, hi⟩).2.2 ∈
      tl.map (fun e => joinSp e.2.2) :=
    List.mem_map.mpr ⟨tl.get ⟨i, hi⟩, List.get_mem tl i hi, rfl⟩
  have hcpos : 0 < (tl.map fun e => joinSp e.2.2).count
      (joinSp (tl.get ⟨i, hi⟩).2.2) := List.count_pos_iff.mpr hxmem
  rw [countMapOf_lookup, if_neg (by omega)]
  rw [and_comm]
  apply and_congr
  · constructor
    · intro h
      exact Option.some.inj h
    · intro h
      rw [h]
  · rw [mem_prefixJoins]
    constructor
    · intro hnot hex
      apply hnot
      obtain ⟨j, hj, hne, t, h1, h2, h3⟩ := hex
      exact ⟨tl.get ⟨j, hj⟩, List.get_mem tl j hj, t, h1, h2, h3⟩
    · intro hnot hex
      apply hnot
      obtain ⟨e, he, t, h1, h2, h3⟩ := hex
      obtain ⟨⟨j, hj⟩, hje⟩ := List.mem_iff_get.mp he
      by_cases hji : j = i
      · exfalso
        subst hji
        have h1' : t <+: (tl.get ⟨j, hi⟩).2.2 := by rw [hje]; exact h1
        have h2' : t ≠ (tl.get ⟨j, hi⟩).2.2 := by rw [hje]; exact h2
        exact joinSp_ne_of_strict_prefix h1' h2' hx h3
      · refine ⟨j, hj, hji, t, ?_, ?_, h3⟩
        · rw [hje]; exact h1
        · rw [hje]; exact h2

/-- C4 witness: on two entries sharing the pronunciation `x_S`, the iff
instantiated at the first entry. -/
theorem C4_witness :
    let tl : List (String × ℚ × List String) :=
      [("a", 0, ["x_S"]), ("b", 0, ["x_S"])]
    (((addDisambig tl).1[0]? = some (tl.get ⟨0, by decide⟩)) ↔
      ((tl.map fun e => joinSp e.2.2).count
          (joinSp (tl.get ⟨0, by decide⟩).2.2) = 1 ∧
        ¬ ∃ j, ∃ hj : j < tl.length, j ≠ 0 ∧ ∃ t,
          t <+: (tl.get ⟨j, hj⟩).2.2 ∧ t ≠ (tl.get ⟨j, hj⟩).2.2 ∧
          joinSp t = joinSp (tl.get ⟨0, by decide⟩).2.2)) :=
  addDisambig_no_symbol_iff
    [("a", (0 : ℚ), ["x_S"]), ("b", 0, ["x_S"])] 0 (by decide) (by decide)

theorem lookup_cons_self {β : Type} (x : String) (v : β)
    (m : List (String × β)) : List.lookup x ((x, v) :: m) = some v := by
  simp [List.lookup]

theorem lookup_cons_ne {β : Type} (x y : String) (v : β)
    (m : List (String × β)) (h : x ≠ y) :
    List.lookup x ((y, v) :: m) = List.lookup x m := by
  simp only [List.lookup]
  rw [beq_eq_false_iff_ne.mpr h]

theorem disambigStep_else {C : Type} (cnt : List (String × Nat))
    (pfx : List String) (st : DisState) (e : String × C × List String)
    (hc : ¬ (joinSp e.2.2 ∉ pfx ∧ List.lookup (joinSp e.2.2) cnt = some 1))
    (hx : joinSp e.2.2 ≠ "") :
    disambigStep cnt pfx st e =
      (⟨(if st.maxDisambig < nextFree st.reservedEmpty
            (match List.lookup (joinSp e.2.2) st.lastSym with
              | none => 1
              | some l => l + 1)
          then nextFree st.reservedEmpty
            (match List.lookup (joinSp e.2.2) st.lastSym with
              | none => 1
              | some l => l + 1)
          else st.maxDisambig),
        st.reservedEmpty,
        (joinSp e.2.2, nextFree st.reservedEmpty
          (match List.lookup (joinSp e.2.2) st.lastSym with
            | none => 1
            | some l => l + 1)) :: st.lastSym⟩,
       (e.1, e.2.1, e.2.2 ++ ["#" ++ toString (nextFree st.reservedEmpty
          (match List.lookup (joinSp e.2.2) st.lastSym with
            | none => 1
            | some l => l + 1))])) := by
  simp only [disambigStep]
  rw [if_neg hc, if_neg hx]

/-- The core contiguity invariant of the assigner: as long as no entry has
an empty joined transcription (so `reserved_empty` stays empty) and the
target string `x` does not satisfy the no-symbol condition, the `occ`-th
occurrence of `x` receives exactly the symbol `occ + 1`. -/
theorem disambigGo_group {C : Type} (cnt : List (String × Nat))
    (pfx : List String) (x : String) (_hx : x ≠ "")
    (hcnt : ¬ List.lookup x cnt = some 1) :
    ∀ (es : List (String × C × List String)) (st : DisState) (occ : Nat),
      st.reservedEmpty = [] →
      (∀ e ∈ es, joinSp e.2.2 ≠ "") →
      List.lookup x st.lastSym = (if occ = 0 then none else some occ) →
      ∀ i (hi : i < es.length), joinSp (es.get ⟨i, hi⟩).2.2 = x →
        (disambigGo cnt pfx st es).2[i]? =
          some ((es.get ⟨i, hi⟩).1, (es.get ⟨i, hi⟩).2.1,
            (es.get ⟨i, hi⟩).2.2 ++
              ["#" ++ toString
                (occ + ((es.take i).map fun e => joinSp e.2.2).count x
                  + 1)]) :=
  fun es => by
    induction es with
    | nil =>
      intro st occ _ _ _ i hi
      exact absurd hi (by simp)
    | cons e es ih =>
      intro st occ hres hne hlast i hi hjoin
      have hnee : joinSp e.2.2 ≠ "" := hne e (List.mem_cons_self e es)
      have hnees : ∀ f ∈ es, joinSp f.2.2 ≠ "" :=
        fun f hf => hne f (List.mem_cons_of_mem e hf)
      rcases i with _ | i
      · -- the head entry belongs to the group
        simp only [List.get] at hjoin ⊢
        rw [disambigGo_cons]
        have hc : ¬ (joinSp e.2.2 ∉ pfx ∧
            List.lookup (joinSp e.2.2) cnt = some 1) := by
          rw [hjoin]
          intro h
          exact hcnt h.2
        rw [disambigStep_else cnt pfx st e hc hnee]
        have hc0 : (match List.lookup (joinSp e.2.2) st.lastSym with
            | none => 1
            | some l => l + 1) = occ + 1 := by
          rw [hjoin, hlast]
          rcases occ with _ | k <;> simp
        rw [List.getElem?_cons_zero]
        simp only [hc0, hres, nextFree_nil]
        simp
      · -- the head entry is processed first, then recurse
        have hi' : i < es.length := by simpa using hi
        have hjoin' : joinSp (es.get ⟨i, hi'⟩).2.2 = x := by
          simpa [List.get] using hjoin
        rw [disambigGo_cons, List.getElem?_cons_succ]
        by_cases hcond : joinSp e.2.2 ∉ pfx ∧
            List.lookup (joinSp e.2.2) cnt = some 1
        · -- pass: the head is left unchanged and the state is untouched
          have hexne : joinSp e.2.2 ≠ x := by
            intro hne2
            rw [hne2] at hcond
            exact hcnt hcond.2
          rw [disambigStep_pass cnt pfx st e hcond]
          have := ih st occ hres hnees hlast i hi' hjoin'
          rw [this]
          have hcount : ((((e :: es).take (i + 1)).map
                (fun f => joinSp f.2.2)).count x) =
              ((es.take i).map fun f => joinSp f.2.2).count x := by
            rw [List.take_succ_cons, List.map_cons,
              List.count_cons_of_ne (fun h => hexne h.symm)]
          simp only [List.get]
          rw [hcount]
        · -- a symbol is appended to the head entry
          have hstep := disambigStep_else cnt pfx st e hcond hnee
          have hres' : (disambigStep cnt pfx st e).1.reservedEmpty = [] := by
            rw [hstep]
            exact hres
          by_cases hex : joinSp e.2.2 = x
          · -- the head is another member of the group
            have hc0 : (match List.lookup (joinSp e.2.2) st.lastSym with
                | none => 1
                | some l => l + 1) = occ + 1 := by
              rw [hex, hlast]
              rcases occ with _ | k <;> simp
            have hlast' : List.lookup x
                (disambigStep cnt pfx st e).1.lastSym =
                (if occ + 1 = 0 then none else some (occ + 1)) := by
              rw [hstep]
              show List.lookup x ((joinSp e.2.2, nextFree st.reservedEmpty
                (match List.lookup (joinSp e.2.2) st.lastSym with
                  | none => 1
                  | some l => l + 1)) :: st.lastSym) = _
              rw [hc0, hres, nextFree_nil, hex, lookup_cons_self]
              simp
            have := ih (disambigStep cnt pfx st e).1 (occ + 1) hres' hnees
              hlast' i hi' hjoin'
            rw [this]
            have hcount : ((((e :: es).take (i + 1)).map
                  (fun f => joinSp f.2.2)).count x) =
                ((es.take i).map fun f => joinSp f.2.2).count x + 1 := by
              rw [List.take_succ_cons, List.map_cons, hex,
                List.count_cons_self]
            simp only [List.get]
            rw [show occ + 1 +
                ((es.take i).map fun f => joinSp f.2.2).count x + 1 =
                occ + (((e :: es).take (i + 1)).map
                  fun f => joinSp f.2.2).count x + 1 by
              rw [hcount]
              omega]
          · -- the head is outside the group
            have hlast' : List.lookup x
                (disambigStep cnt pfx st e).1.lastSym =
                (if occ = 0 then none else some occ) := by
              rw [hstep]
              show List.lookup x ((joinSp e.2.2, nextFree st.reservedEmpty
                (match List.lookup (joinSp e.2.2) st.lastSym with
                  | none => 1
                  | some l => l + 1)) :: st.lastSym) = _
              rw [lookup_cons_ne x (joinSp e.2.2) _ _
                (fun h => hex h.symm), hlast]
            have := ih (disambigStep cnt pfx st e).1 occ hres' hnees
              hlast' i hi' hjoin'
            rw [this]
            have hcount : ((((e :: es).take (i + 1)).map
                  (fun f => joinSp f.2.2)).count x) =
                ((es.take i).map fun f => joinSp f.2.2).count x := by
              rw [List.take_succ_cons, List.map_cons,
                List.count_cons_of_ne (fun h => hex h.symm)]
            simp only [List.get]
            rw [hcount]

/-- C3: for a group of entries whose tagged pronunciations join to the
identical non-empty string `x` shared by at least two entries, the
assigner appends to the `k`-th occurrence (in input order) exactly the
symbol `#(k+1)` — the group receives distinct symbols forming the
contiguous run `1..group-size`, starting at the lowest unused integer ≥ 1
for that string (the `last_sym` counter for `x` starts at `first_sym = 1`).
The hypothesis that every entry's joined transcription is non-empty always
holds inside `prepare_lexicon`, because positional tagging appends a
`_B`/`_E`/`_S`/`_I` tag to every phone. -/
theorem addDisambig_group_contiguous {C : Type}
    (tl : List (String × C × List String)) (x : String)
    (hne : ∀ e ∈ tl, joinSp e.2.2 ≠ "")
    (hk : 2 ≤ (tl.map fun e => joinSp e.2.2).count x)
    (i : Nat) (hi : i < tl.length)
    (hjoin : joinSp (tl.get ⟨i, hi⟩).2.2 = x) :
    (addDisambig tl).1[i]? =
      some ((tl.get ⟨i, hi⟩).1, (tl.get ⟨i, hi⟩).2.1,
        (tl.get ⟨i, hi⟩).2.2 ++
          ["#" ++ toString
            (((tl.take i).map fun e => joinSp e.2.2).count x + 1)]) := by
  have hx : x ≠ "" := hjoin ▸ hne _ (List.get_mem tl i hi)
  have hcnt : ¬ List.lookup x
      (countMapOf (tl.map fun e => joinSp e.2.2)) = some 1 := by
    rw [countMapOf_lookup, if_neg (by omega)]
    intro h
    have := Option.some.inj h
    omega
  have hgo : (addDisambig tl).1 =
      (disambigGo (countMapOf (tl.map fun e => joinSp e.2.2))
        (prefixJoins tl) ⟨0, [], []⟩ tl).2 := rfl
  rw [hgo]
  have := disambigGo_group (countMapOf (tl.map fun e => joinSp e.2.2))
    (prefixJoins tl) x hx hcnt tl ⟨0, [], []⟩ 0 rfl hne
    (by simp [List.lookup]) i hi hjoin
  simpa using this

/-- C3 witness: on the lexicon `[("a", 0, ["x"]), ("b", 0, ["x"])]` the two
entries (tagged `x_S`) receive symbols `#1` and `#2` in input order, and
running the whole of `prepare_lexicon` on it yields silence-disambiguation
candidate 3. -/
theorem C3_witness :
    let tl : List (String × ℚ × List String) :=
      [("a", 0, ["x_S"]), ("b", 0, ["x_S"])]
    ((addDisambig tl).1[0]? =
      some ((tl.get ⟨0, by decide⟩).1, (tl.get ⟨0, by decide⟩).2.1,
        (tl.get ⟨0, by decide⟩).2.2 ++
          ["#" ++ toString
            (((tl.take 0).map fun e => joinSp e.2.2).count "x_S" + 1)])) ∧
    ((addDisambig tl).1[1]? =
      some ((tl.get ⟨1, by decide⟩).1, (tl.get ⟨1, by decide⟩).2.1,
        (tl.get ⟨1, by decide⟩).2.2 ++
          ["#" ++ toString
            (((tl.take 1).map fun e => joinSp e.2.2).count "x_S" + 1)])) ∧
    (addDisambig tl).1 =
      [("a", 0, ["x_S", "#1"]), ("b", 0, ["x_S", "#2"])] ∧
    (prepare_lexicon (C := ℚ) (fun q => -q)
        [("a", 0, ["x"]), ("b", 0, ["x"])] ["sil"] ["x"] "sil"
        "<unk>").map (fun out => out.silDisambig) = .ok 3 :=
  ⟨addDisambig_group_contiguous [("a", (0 : ℚ), ["x_S"]), ("b", 0, ["x_S"])]
      "x_S" (by decide) (by decide) 0 (by decide) (by decide),
   addDisambig_group_contiguous [("a", (0 : ℚ), ["x_S"]), ("b", 0, ["x_S"])]
      "x_S" (by decide) (by decide) 1 (by decide) (by decide),
   by rfl, by rfl⟩

/-! ### The symbol registries -/

theorem range'_append_consec (s m n : Nat) :
    List.range' s m ++ List.range' (s + m) n = List.range' s (m + n) := by
  have h := List.range'_append s m n 1
  simp only [one_mul] at h
  rw [Nat.add_comm n m] at h
  exact h

theorem silPhoneEntries_spec :
    ∀ (l : List String) (c : Nat),
      (silPhoneEntries l c).1.map Prod.fst =
        l.flatMap (fun p => [p, p ++ "_B", p ++ "_E", p ++ "_S", p ++ "_I"])
      ∧ (silPhoneEntries l c).1.map Prod.snd = List.range' c (5 * l.length)
      ∧ (silPhoneEntries l c).2 = c + 5 * l.length
  | [], c => by simp [silPhoneEntries]
  | p :: rest, c => by
    obtain ⟨h1, h2, h3⟩ := silPhoneEntries_spec rest (c + 5)
    refine ⟨?_, ?_, ?_⟩
    · simp only [silPhoneEntries, List.map_append, h1, List.flatMap_cons]
      rfl
    · simp only [silPhoneEntries, List.map_append, h2]
      have : (5 : Nat) * (p :: rest).length = 5 + 5 * rest.length := by
        simp [List.length_cons]
        ring
      rw [this, ← range'_append_consec c 5 (5 * rest.length)]
      rfl
    · simp only [silPhoneEntries, h3, List.length_cons]
      ring
  termination_by l => l.length

theorem nonsilPhoneEntries_spec :
    ∀ (l : List String) (c : Nat),
      (nonsilPhoneEntries l c).1.map Prod.fst =
        l.flatMap (fun p => [p ++ "_B", p ++ "_E", p ++ "_S", p ++ "_I"])
      ∧ (nonsilPhoneEntries l c).1.map Prod.snd =
        List.range' c (4 * l.length)
      ∧ (nonsilPhoneEntries l c).2 = c + 4 * l.length
  | [], c => by simp [nonsilPhoneEntries]
  | p :: rest, c => by
    obtain ⟨h1, h2, h3⟩ := nonsilPhoneEntries_spec rest (c + 4)
    refine ⟨?_, ?_, ?_⟩
    · simp only [nonsilPhoneEntries, List.map_append, h1, List.flatMap_cons]
      rfl
    · simp only [nonsilPhoneEntries, List.map_append, h2]
      have : (4 : Nat) * (p :: rest).length = 4 + 4 * rest.length := by
        simp [List.length_cons]
        ring
      rw [this, ← range'_append_consec c 4 (4 * rest.length)]
      rfl
    · simp only [nonsilPhoneEntries, h3, List.length_cons]
      ring
  termination_by l => l.length

theorem disambigEntries_spec (bound c : Nat) :
    (disambigEntries bound c).map Prod.fst =
        (List.range bound).map (fun i => "#" ++ toString i) ∧
      (disambigEntries bound c).map Prod.snd = List.range' c bound := by
  constructor
  · rw [disambigEntries, List.map_map]
    rfl
  · rw [disambigEntries, List.map_map, List.range'_eq_map_range]
    apply List.map_congr_left
    intro i _
    rfl

theorem numberFrom_spec :
    ∀ (c : Nat) (l : List String),
      (numberFrom c l).map Prod.fst = l ∧
      (numberFrom c l).map Prod.snd = List.range' c l.length
  | _, [] => by simp [numberFrom]
  | c, w :: rest => by
    obtain ⟨h1, h2⟩ := numberFrom_spec (c + 1) rest
    constructor
    · simp [numberFrom, h1]
    · simp only [numberFrom, List.map_cons, h2, List.length_cons]
      rfl

/-- The phone registry allocates ids `0, 1, 2, ...` consecutively, in
exactly the order: epsilon; the five positional forms of each silence
phone; the four positional forms of each non-silence phone; the `#i`
disambiguation symbols. -/
theorem phoneMapOf_spec (silencePhones nonsilencePhones : List String)
    (maxDis : Nat) :
    (phoneMapOf silencePhones nonsilencePhones maxDis).map Prod.fst =
      "<eps>" ::
        (silencePhones.flatMap
          (fun p => [p, p ++ "_B", p ++ "_E", p ++ "_S", p ++ "_I"])
        ++ nonsilencePhones.flatMap
          (fun p => [p ++ "_B", p ++ "_E", p ++ "_S", p ++ "_I"])
        ++ (List.range (maxDis + 1)).map (fun i => "#" ++ toString i)) ∧
    (phoneMapOf silencePhones nonsilencePhones maxDis).map Prod.snd =
      List.range (1 + 5 * silencePhones.length +
        4 * nonsilencePhones.length + (maxDis + 1)) := by
  obtain ⟨hs1, hs2, hs3⟩ := silPhoneEntries_spec silencePhones 1
  obtain ⟨hn1, hn2, hn3⟩ :=
    nonsilPhoneEntries_spec nonsilencePhones (silPhoneEntries silencePhones 1).2
  obtain ⟨hd1, hd2⟩ := disambigEntries_spec (maxDis + 1)
    (nonsilPhoneEntries nonsilencePhones (silPhoneEntries silencePhones 1).2).2
  constructor
  · show (("<eps>", 0) :: ((silPhoneEntries silencePhones 1).1 ++
      (nonsilPhoneEntries nonsilencePhones
        (silPhoneEntries silencePhones 1).2).1 ++
      disambigEntries (maxDis + 1)
        (nonsilPhoneEntries nonsilencePhones
          (silPhoneEntries silencePhones 1).2).2)).map Prod.fst = _
    simp only [List.map_cons, List.map_append, hs1, hn1, hd1]
  · show (("<eps>", 0) :: ((silPhoneEntries silencePhones 1).1 ++
      (nonsilPhoneEntries nonsilencePhones
        (silPhoneEntries silencePhones 1).2).1 ++
      disambigEntries (maxDis + 1)
        (nonsilPhoneEntries nonsilencePhones
          (silPhoneEntries silencePhones 1).2).2)).map Prod.snd = _
    simp only [List.map_cons, List.map_append, hs2, hn2, hd2]
    rw [hn3, hs3]
    rw [List.append_assoc]
    rw [range'_append_consec (1 + 5 * silencePhones.length)
        (4 * nonsilencePhones.length) (maxDis + 1),
      range'_append_consec 1 (5 * silencePhones.length)
        (4 * nonsilencePhones.length + (maxDis + 1)),
      show 1 + 5 * silencePhones.length + 4 * nonsilencePhones.length +
        (maxDis + 1) = (5 * silencePhones.length +
        (4 * nonsilencePhones.length + (maxDis + 1))) + 1 by ring,
      List.range_eq_range']
    rfl

/-- The word registry allocates ids `0, 1, 2, ...` consecutively: epsilon,
the distinct words in increasing order, then `#0`, `<s>`, `</s>`. -/
theorem wordsMapOf_spec {C : Type}
    (lexicon : List (String × C × List String)) :
    (wordsMapOf lexicon).map Prod.fst =
      "<eps>" :: (sortedWords (lexicon.map fun e => e.1)
        ++ ["#0", "<s>", "</s>"]) ∧
    (wordsMapOf lexicon).map Prod.snd =
      List.range ((sortedWords (lexicon.map fun e => e.1)).length + 4) := by
  obtain ⟨h1, h2⟩ :=
    numberFrom_spec 1 (sortedWords (lexicon.map fun e => e.1))
  have hw : wordsMapOf lexicon =
      ("<eps>", 0) ::
        (numberFrom 1 (sortedWords (lexicon.map fun e => e.1))
          ++ [("#0", 1 + (sortedWords (lexicon.map fun e => e.1)).length),
              ("<s>",
                1 + (sortedWords (lexicon.map fun e => e.1)).length + 1),
              ("</s>",
                1 + (sortedWords (lexicon.map fun e => e.1)).length + 2)]) :=
    rfl
  rw [hw]
  constructor
  · have hmf : (("<eps>", 0) :: (numberFrom 1 (sortedWords (lexicon.map fun e => e.1))
        ++ [("#0", 1 + (sortedWords (lexicon.map fun e => e.1)).length), ("<s>", 1 + (sortedWords (lexicon.map fun e => e.1)).length + 1),
            ("</s>", 1 + (sortedWords (lexicon.map fun e => e.1)).length + 2)])).map Prod.fst =
      "<eps>" :: ((numberFrom 1 (sortedWords (lexicon.map fun e => e.1))).map Prod.fst
        ++ ["#0", "<s>", "</s>"]) := by
      rw [List.map_cons, List.map_append]
      rfl
    rw [hmf, h1]
  · have hms : (("<eps>", 0) :: (numberFrom 1 (sortedWords (lexicon.map fun e => e.1))
        ++ [("#0", 1 + (sortedWords (lexicon.map fun e => e.1)).length), ("<s>", 1 + (sortedWords (lexicon.map fun e => e.1)).length + 1),
            ("</s>", 1 + (sortedWords (lexicon.map fun e => e.1)).length + 2)])).map Prod.snd =
      0 :: ((numberFrom 1 (sortedWords (lexicon.map fun e => e.1))).map Prod.snd
        ++ [1 + (sortedWords (lexicon.map fun e => e.1)).length, 1 + (sortedWords (lexicon.map fun e => e.1)).length + 1, 1 + (sortedWords (lexicon.map fun e => e.1)).length + 2]) := by
      rw [List.map_cons, List.map_append]
      rfl
    rw [hms, h2,
      show ([1 + (sortedWords (lexicon.map fun e => e.1)).length, 1 + (sortedWords (lexicon.map fun e => e.1)).length + 1, 1 + (sortedWords (lexicon.map fun e => e.1)).length + 2] : List Nat) =
        List.range' (1 + (sortedWords (lexicon.map fun e => e.1)).length) 3 from rfl,
      range'_append_consec 1 (sortedWords (lexicon.map fun e => e.1)).length 3, List.range_eq_range',
      show (sortedWords (lexicon.map fun e => e.1)).length + 4 = ((sortedWords (lexicon.map fun e => e.1)).length + 3) + 1 by ring]
    rfl

/-- `sorted(set(words))`: increasing, duplicate-free, same members. -/
theorem sortedWords_spec (ws : List String) :
    (sortedWords ws).Sorted (· ≤ ·) ∧ (sortedWords ws).Nodup ∧
      ∀ w, w ∈ sortedWords ws ↔ w ∈ ws := by
  refine ⟨List.sorted_insertionSort _ _, ?_, ?_⟩
  · exact ((List.perm_insertionSort _ _).nodup_iff).mpr ws.nodup_dedup
  · intro w
    show w ∈ List.insertionSort (· ≤ ·) ws.dedup ↔ w ∈ ws
    rw [(List.perm_insertionSort _ _).mem_iff, List.mem_dedup]

theorem disambigStep_fst {C : Type} (cnt : List (String × Nat))
    (pfx : List String) (st : DisState) (e : String × C × List String) :
    ((disambigStep cnt pfx st e).2).1 = e.1 := by
  simp only [disambigStep]
  split
  · rfl
  · split <;> rfl

theorem disambigGo_map_fst {C : Type} (cnt : List (String × Nat))
    (pfx : List String) :
    ∀ (es : List (String × C × List String)) (st : DisState),
      ((disambigGo cnt pfx st es).2).map (fun e => e.1) =
        es.map (fun e => e.1)
  | [], _ => rfl
  | e :: es, st => by
    rw [disambigGo_cons, List.map_cons, List.map_cons, disambigStep_fst,
      disambigGo_map_fst cnt pfx es _]

theorem tagLexicon_map_fst {C : Type} :
    ∀ (lexicon tl : List (String × C × List String)),
      tagLexicon lexicon = some tl →
      tl.map (fun e => e.1) = lexicon.map (fun e => e.1)
  | [], tl, h => by
    cases h
    rfl
  | (w, p, t) :: rest, tl, h => by
    simp only [tagLexicon] at h
    rcases htt : tagTrans t with _ | t' <;> rw [htt] at h
    · cases h
    · rcases hrest : tagLexicon rest with _ | rest' <;> rw [hrest] at h
      · cases h
      · cases h
        simp only [List.map_cons]
        rw [tagLexicon_map_fst rest rest' hrest]

/-- C6: the symbol registries built by `prepare_lexicon` allocate ids as a
contiguous, duplicate-free range starting at 0, in exactly the claimed
order — phones: epsilon, then for each silence phone five consecutive ids
for its plain/`_B`/`_E`/`_S`/`_I` forms, then for each non-silence phone
four consecutive ids for `_B`/`_E`/`_S`/`_I`, then one id for each `#i`
with `0 ≤ i ≤ sil_disambig` (the post-increment `max_disambig`); words:
epsilon, the distinct lexicon words in increasing order, then `#0`, `<s>`,
`</s>`.  (The embedding keeps the dict as an insertion-ordered association
list, which coincides with the Python dict whenever the generated keys are
pairwise distinct, as they are for well-formed phone inventories.) -/
theorem prepare_lexicon_symbol_tables {C : Type} [Zero C] [Add C]
    (negLog : ℚ → C) (lexicon : List (String × C × List String))
    (silencePhones nonsilencePhones : List String)
    (optionalSilence oov : String) (out : PrepResult C)
    (h : prepare_lexicon negLog lexicon silencePhones nonsilencePhones
        optionalSilence oov = .ok out) :
    out.phoneMap.map Prod.snd = List.range out.phoneMap.length ∧
    out.phoneMap.map Prod.fst =
      "<eps>" :: (silencePhones.flatMap
          (fun p => [p, p ++ "_B", p ++ "_E", p ++ "_S", p ++ "_I"])
        ++ nonsilencePhones.flatMap
          (fun p => [p ++ "_B", p ++ "_E", p ++ "_S", p ++ "_I"])
        ++ (List.range (out.silDisambig + 1)).map
          (fun i => "#" ++ toString i)) ∧
    out.wordsMap.map Prod.snd = List.range out.wordsMap.length ∧
    out.wordsMap.map Prod.fst =
      "<eps>" :: (sortedWords (lexicon.map fun e => e.1)
        ++ ["#0", "<s>", "</s>"]) ∧
    (sortedWords (lexicon.map fun e => e.1)).Sorted (· ≤ ·) ∧
    (sortedWords (lexicon.map fun e => e.1)).Nodup ∧
    (∀ w, w ∈ sortedWords (lexicon.map fun e => e.1) ↔
      w ∈ lexicon.map (fun e => e.1)) := by
  obtain ⟨-, -, hpm, hwm, tagged, htag, htl, -⟩ := prepare_lexicon_ok negLog
    lexicon silencePhones nonsilencePhones optionalSilence oov out h
  obtain ⟨hp1, hp2⟩ :=
    phoneMapOf_spec silencePhones nonsilencePhones out.silDisambig
  have hfst : out.taggedLex.map (fun e => e.1) =
      lexicon.map (fun e => e.1) := by
    rw [htl]
    have hgo : (addDisambig tagged).1 =
        (disambigGo (countMapOf (tagged.map fun e => joinSp e.2.2))
          (prefixJoins tagged) ⟨0, [], []⟩ tagged).2 := rfl
    rw [hgo, disambigGo_map_fst, tagLexicon_map_fst lexicon tagged htag]
  obtain ⟨hw1, hw2⟩ := wordsMapOf_spec out.taggedLex
  rw [hfst] at hw1 hw2
  obtain ⟨hs1, hs2, hs3⟩ := sortedWords_spec (lexicon.map fun e => e.1)
  have hplen : (phoneMapOf silencePhones nonsilencePhones
      out.silDisambig).length =
      1 + 5 * silencePhones.length + 4 * nonsilencePhones.length +
        (out.silDisambig + 1) := by
    have := congrArg List.length hp2
    simpa using this
  have hwlen : (wordsMapOf out.taggedLex).length =
      (sortedWords (lexicon.map fun e => e.1)).length + 4 := by
    have := congrArg List.length hw2
    simpa using this
  refine ⟨?_, ?_, ?_, ?_, hs1, hs2, hs3⟩
  · rw [hpm, hp2, hplen]
  · rw [hpm, hp1]
  · rw [hwm, hw2, hwlen]
  · rw [hwm, hw1]

/-- C6 witness: the registry layout instantiated on a concrete run. -/
theorem C6_witness :
    let out : PrepResult ℚ :=
      ⟨[("<eps>", 0), ("sil", 1), ("sil_B", 2), ("sil_E", 3),
        ("sil_S", 4), ("sil_I", 5), ("x_B", 6), ("x_E", 7), ("x_S", 8),
        ("x_I", 9), ("#0", 10), ("#1", 11)],
       [("<eps>", 0), ("a", 1), ("#0", 2), ("<s>", 3), ("</s>", 4)],
       [("a", 0, ["x_S"])], 0, 1,
       [.arc ⟨0, 1, "<eps>", "<eps>", -(1 - Rat.divInt 1 2)⟩,
        .arc ⟨0, 2, "<eps>", "<eps>", -(Rat.divInt 1 2)⟩,
        .arc ⟨2, 1, "sil", "<eps>", 0⟩,
        .arc ⟨1, 1, "x_S", "a", -(1 - Rat.divInt 1 2) + 0⟩,
        .arc ⟨1, 2, "x_S", "a", -(Rat.divInt 1 2) + 0⟩,
        .final 1 0], []⟩
    prepare_lexicon (C := ℚ) (fun q => -q) [("a", 0, ["x"])] ["sil"] ["x"]
        "sil" "<unk>" = .ok out ∧
    (out.phoneMap.map Prod.snd = List.range out.phoneMap.length ∧
     out.phoneMap.map Prod.fst =
       "<eps>" :: ((["sil"] : List String).flatMap
           (fun p => [p, p ++ "_B", p ++ "_E", p ++ "_S", p ++ "_I"])
         ++ (["x"] : List String).flatMap
           (fun p => [p ++ "_B", p ++ "_E", p ++ "_S", p ++ "_I"])
         ++ (List.range (out.silDisambig + 1)).map
           (fun i => "#" ++ toString i)) ∧
     out.wordsMap.map Prod.snd = List.range out.wordsMap.length ∧
     out.wordsMap.map Prod.fst =
       "<eps>" :: (sortedWords (([("a", (0 : ℚ), ["x"])] :
           List (String × ℚ × List String)).map fun e => e.1)
         ++ ["#0", "<s>", "</s>"]) ∧
     (sortedWords (([("a", (0 : ℚ), ["x"])] :
         List (String × ℚ × List String)).map fun e => e.1)).Sorted
       (· ≤ ·) ∧
     (sortedWords (([("a", (0 : ℚ), ["x"])] :
         List (String × ℚ × List String)).map fun e => e.1)).Nodup ∧
     (∀ w, w ∈ sortedWords (([("a", (0 : ℚ), ["x"])] :
         List (String × ℚ × List String)).map fun e => e.1) ↔
       w ∈ ([("a", (0 : ℚ), ["x"])] :
         List (String × ℚ × List String)).map (fun e => e.1))) :=
  ⟨by rfl,
   prepare_lexicon_symbol_tables (fun q => -q) [("a", 0, ["x"])] ["sil"]
     ["x"] "sil" "<unk>" _ (by rfl)⟩

/-! ### Frame property of the mutating passes -/

theorem take_set_of_le {α : Type} :
    ∀ (l : List α) (i n : Nat) (a : α), n ≤ i →
      (l.set i a).take n = l.take n
  | [], _, _, _, _ => rfl
  | x :: xs, 0, n, a, h => by
    have : n = 0 := Nat.le_zero.mp h
    subst this
    rfl
  | x :: xs, i + 1, 0, a, _ => by simp
  | x :: xs, i + 1, n + 1, a, h => by
    show (x :: xs.set i a).take (n + 1) = (x :: xs).take (n + 1)
    rw [List.take_succ_cons, List.take_succ_cons,
      take_set_of_le xs i n a (by omega)]

theorem tagStorePass_take (n : Nat) :
    ∀ (refs : List Nat) (store store' : List (List String)),
      (∀ r ∈ refs, n ≤ r) → tagStorePass store refs = some store' →
      store'.take n = store.take n
  | [], store, store', _, h => by
    cases h
    rfl
  | r :: rs, store, store', hr, h => by
    simp only [tagStorePass] at h
    rcases htt : tagTrans (store.getD r []) with _ | t <;> rw [htt] at h
    · cases h
    · rw [tagStorePass_take n rs (store.set r t) store'
        (fun s hs => hr s (List.mem_cons_of_mem r hs)) h]
      exact take_set_of_le store r n t (hr r (List.mem_cons_self r rs))

theorem appendStorePass_take (cnt : List (String × Nat))
    (pfx : List String) (n : Nat) :
    ∀ (refs : List Nat) (store : List (List String)) (st : DisState),
      (∀ r ∈ refs, n ≤ r) →
      (appendStorePass cnt pfx store st refs).take n = store.take n
  | [], _, _, _ => rfl
  | r :: rs, store, st, hr => by
    show (appendStorePass cnt pfx
      (store.set r ((disambigStep cnt pfx st
        ("", (), store.getD r [])).2).2.2)
      (disambigStep cnt pfx st ("", (), store.getD r [])).1 rs).take n =
      store.take n
    rw [appendStorePass_take cnt pfx n rs _ _
      (fun s hs => hr s (List.mem_cons_of_mem r hs))]
    exact take_set_of_le store r n _ (hr r (List.mem_cons_self r rs))

/-- C10: on every run of the mutating core of `prepare_lexicon` that
returns, the caller's cells are unchanged: the deep copy allocates fresh
cells at indices `≥ store.length`, positional tags and disambiguation
symbols are written only to those fresh cells, so the original prefix of
the store — everything the caller's lexicon references — is exactly what
it was before the call. -/
theorem prepareLexiconStore_frame (store : List (List String))
    (refs : List Nat) (store' : List (List String))
    (h : prepareLexiconStore store refs = some store') :
    store'.take store.length = store := by
  have hcopy : ∀ r ∈ (List.range refs.length).map (store.length + ·),
      store.length ≤ r := by
    intro r hr
    rcases List.mem_map.mp hr with ⟨i, -, rfl⟩
    omega
  simp only [prepareLexiconStore] at h
  rcases htp : tagStorePass (store ++ refs.map fun r => store.getD r [])
      ((List.range refs.length).map (store.length + ·)) with _ | store2 <;>
    rw [htp] at h
  · cases h
  · cases h
    rw [appendStorePass_take _ _ store.length _ store2 ⟨0, [], []⟩ hcopy]
    rw [tagStorePass_take store.length _ _ store2 hcopy htp]
    exact List.take_left store _

/-- C10 witness: a one-entry store run through the mutating core. -/
theorem C10_witness :
    prepareLexiconStore [["x"]] [0] = some [["x"], ["x_S"]] ∧
    ([["x"], ["x_S"]] : List (List String)).take
      ([["x"]] : List (List String)).length = [["x"]] :=
  ⟨by rfl, prepareLexiconStore_frame [["x"]] [0] [["x"], ["x_S"]] (by rfl)⟩

end ASRLex
